import Mathlib

/-!
Verification development for a small information-retrieval engine
(skip-list postings, boolean/phrasal/ranked retrieval).

Embedding conventions:
* `LinkedList α` (data_structures.py) is backed by a Python list of
  `(value, skip_index)` pairs; we embed it as `List (α × Option Nat)`.
  `Node`/cursor operations become index arithmetic.
* Document ids are abstract strings ordered lexicographically; we embed them
  as an arbitrary linearly ordered type `D` (examples use `Nat`).
* Token positions are Python ints; we embed them as `ℤ` (the merge kernel
  computes `after.value - 1`, which may be negative).
* Floating point tf/idf weights are embedded as `ℚ`.
* The postings file plus `(offset, length)` slices are embedded by storing
  the decoded postings records directly in the dictionary: a lookup that
  seeks and unpickles a record becomes a direct association-list lookup.
* Python `while` loops over cursors are embedded with an explicit fuel
  counter; the fuel chosen (`A.length + B.length`) bounds the number of
  iterations of any terminating run of the source loop.
-/

/-- A linked list with skip pointers, as in data_structures.py: the backing
store is a list of `(value, optional skip target index)`. -/
abbrev LinkedList (α : Type) : Type := List (α × Option Nat)

/-- The sequence of values held by the list (Python `__iter__`). -/
def LinkedList.values {α : Type} (l : LinkedList α) : List α := l.map Prod.fst

/-- `LinkedList.append`: push one value to the tail; the new node has no
skip pointer. Existing nodes are untouched. -/
def LinkedList.push {α : Type} (l : LinkedList α) (v : α) : LinkedList α :=
  l ++ [(v, none)]

/-- `LinkedList.extend`: append all values from an iterable, each with no
skip pointer. -/
def LinkedList.extendValues {α : Type} (l : LinkedList α) (vs : List α) : LinkedList α :=
  l ++ vs.map (fun v => (v, none))

/-- A freshly built list: `LinkedList()` followed by `extend(vs)`. -/
def LinkedList.ofValues {α : Type} (vs : List α) : LinkedList α :=
  vs.map (fun v => (v, none))

/-- `_get_skip` at an index: the stored skip target, if any (a `Node.skip()`
call answers `none` exactly when this is `none`). -/
def LinkedList.skipAt {α : Type} (l : LinkedList α) (i : Nat) : Option Nat :=
  (l[i]?).bind Prod.snd

/-- Overwrite the skip pointer stored at index `i` (the
`self._data[prev] = (value, i)` assignment inside `build_skips`). Out of
range indices leave the list unchanged. -/
def setSkip {α : Type} (l : LinkedList α) (i target : Nat) : LinkedList α :=
  match l[i]? with
  | some (v, _) => l.set i (v, some target)
  | none => l

/-- The `for i in range(interval, total_skips * interval + 1, interval)`
loop of `build_skips`: set a skip from `prev` to `i`, then advance `prev`. -/
def buildSkipsLoop {α : Type} : LinkedList α → Nat → List Nat → LinkedList α
  | l, _, [] => l
  | l, prev, i :: rest => buildSkipsLoop (setSkip l prev i) i rest

/-- `LinkedList.build_skips` from data_structures.py. `trunc(sqrt(length))`
on a Python float is embedded as `Nat.sqrt`. The skip targets visited by
the range loop are `interval, 2*interval, …, total_skips*interval`. -/
def build_skips {α : Type} (l : LinkedList α) : LinkedList α :=
  let length := l.length
  let total_skips := Nat.sqrt length
  if total_skips = 0 then l
  else
    let interval := (length - 1) / total_skips
    if interval < 3 then l
    else buildSkipsLoop l 0 ((List.range total_skips).map (fun m => (m + 1) * interval))

/-- Well-formed skip layout: every stored skip points strictly forward and
inside the list. `build_skips` only ever produces such layouts. -/
def wfSkips {α : Type} (l : LinkedList α) : Prop :=
  ∀ i e k, l[i]? = some e → e.2 = some k → i < k ∧ k < l.length

/-- The common two-cursor skip-aware merge loop underlying `perform_and`,
`merge_positional_indexes` and `merge_positions`. Both operands are walked
by index; each element is compared through a key (`ka`, `kb` — this models
the source comparing `value`, `value[0]`, or `value - 1`). On equal keys
the match emitter `f` may emit one output and both cursors advance; on a
strictly smaller key the corresponding cursor advances, taking its skip
pointer exactly when the skip target's key is `≤` the opponent's key.
`fuel` bounds the number of loop iterations. -/
def mergeRun {α β γ K : Type} [LinearOrder K] (ka : α → K) (kb : β → K)
    (f : α → β → Option γ) (A : LinkedList α) (B : LinkedList β) :
    Nat → Nat → Nat → List γ
  | 0, _, _ => []
  | fuel + 1, i, j =>
    match A[i]?, B[j]? with
    | some a, some b =>
      if ka a.1 = kb b.1 then
        (f a.1 b.1).toList ++ mergeRun ka kb f A B fuel (i + 1) (j + 1)
      else if ka a.1 < kb b.1 then
        match a.2 with
        | some s =>
          match A[s]? with
          | some a2 =>
            if ka a2.1 ≤ kb b.1 then mergeRun ka kb f A B fuel s j
            else mergeRun ka kb f A B fuel (i + 1) j
          | none => mergeRun ka kb f A B fuel (i + 1) j
        | none => mergeRun ka kb f A B fuel (i + 1) j
      else
        match b.2 with
        | some s =>
          match B[s]? with
          | some b2 =>
            if kb b2.1 ≤ ka a.1 then mergeRun ka kb f A B fuel i s
            else mergeRun ka kb f A B fuel i (j + 1)
          | none => mergeRun ka kb f A B fuel i (j + 1)
        | none => mergeRun ka kb f A B fuel i (j + 1)
    | _, _ => []

/-- `perform_and` from boolean_retrieval.py, specialised to operands whose
values carry a linear order (ints in HW2 usage): intersect two postings
lists, appending each common value to a fresh result list. -/
def perform_and {α : Type} [LinearOrder α] (A B : LinkedList α) : LinkedList α :=
  LinkedList.ofValues (mergeRun id id (fun a _ => some a) A B (A.length + B.length) 0 0)

/-- `merge_positions` from phrasal_retrieval.py: positions `p` of the
second token such that `p - 1` occurs in `before` and `p` in `after`. The
source compares `before.value == after.value - 1`, so the `before` key is
the value itself and the `after` key is `value - 1`; on a match the
*after* value is appended. -/
def merge_positions (before after : LinkedList ℤ) : LinkedList ℤ :=
  LinkedList.ofValues
    (mergeRun id (fun v => v - 1) (fun _ y => some y) before after
      (before.length + after.length) 0 0)

/-- `merge_positional_indexes` from phrasal_retrieval.py: a skip-aware walk
over two positional postings lists keyed by doc id; on a shared doc the
positions are merged with `merge_positions` and the pair is appended only
when that inner merge is non-empty. -/
def merge_positional_indexes {D : Type} [LinearOrder D]
    (before after : LinkedList (D × LinkedList ℤ)) : LinkedList (D × LinkedList ℤ) :=
  LinkedList.ofValues
    (mergeRun Prod.fst Prod.fst
      (fun bp ap =>
        match merge_positions bp.2 ap.2 with
        | [] => none
        | m => some (bp.1, m))
      before after (before.length + after.length) 0 0)

/-- The combined dictionary of search_helpers.py: token ↦ (idf, ranked
postings record, positional record). The two `(offset, length)` slices
into the postings file are embedded as the decoded records themselves. -/
abbrev Dictionary (D : Type) : Type :=
  List (String × (ℚ × LinkedList (D × ℚ) × LinkedList (D × LinkedList ℤ)))

/-- `load_postings_list`: an empty LinkedList if the token is not in the
dictionary, otherwise the decoded ranked postings record. -/
def load_postings_list {D : Type} (dictionary : Dictionary D) (token : String) :
    LinkedList (D × ℚ) :=
  match dictionary.lookup token with
  | some e => e.2.1
  | none => []

/-- `load_positional_index`: an empty LinkedList if the token is not in the
dictionary, otherwise the decoded positional record. -/
def load_positional_index {D : Type} (dictionary : Dictionary D) (token : String) :
    LinkedList (D × LinkedList ℤ) :=
  match dictionary.lookup token with
  | some e => e.2.2
  | none => []

/-- `retrieve_phrase` from phrasal_retrieval.py: fold the positional lists
of the phrase tokens with `merge_positional_indexes`. -/
def retrieve_phrase {D : Type} [LinearOrder D] (dictionary : Dictionary D)
    (tokens : List String) : LinkedList (D × LinkedList ℤ) :=
  match tokens with
  | [] => []
  | t :: rest =>
    rest.foldl (fun acc tok => merge_positional_indexes acc (load_positional_index dictionary tok))
      (load_positional_index dictionary t)

/-- A query item of `perform_boolean_query`: the pair
`(TokenType.PHRASE, [token, …])` or `(TokenType.NON_PHRASE, token)`. -/
inductive QTok : Type
  | phrase (tokens : List String)
  | term (token : String)

/-- The idf stored for a token, or `0` when the token is missing from the
dictionary (the `if term in dictionary else 0` guards of `get_idf`). -/
def idfOf {D : Type} (dictionary : Dictionary D) (token : String) : ℚ :=
  match dictionary.lookup token with
  | some e => e.1
  | none => 0

/-- `get_idf` inside `perform_boolean_query`: a phrase's idf is the sum of
its terms' idfs, a plain term's idf is looked up directly. -/
def get_idf {D : Type} (dictionary : Dictionary D) : QTok → ℚ
  | .phrase ts => (ts.map (idfOf dictionary)).sum
  | .term t => idfOf dictionary t

/-- Insert into a descending-by-key list behind every element whose key is
`≥` the inserted key. -/
def insertDescBy {τ : Type} (key : τ → ℚ) (x : τ) : List τ → List τ
  | [] => [x]
  | y :: ys => if key x ≤ key y then y :: insertDescBy key x ys else x :: y :: ys

/-- Python's `list.sort(key=…, reverse=True)` / `sorted(…, key=…,
reverse=True)`: a stable descending sort — elements with equal keys keep
their original relative order. -/
def sortDescBy {τ : Type} (key : τ → ℚ) (l : List τ) : List τ :=
  l.foldl (fun acc x => insertDescBy key x acc) []

/-- The runtime value held by a postings node reaching `perform_and` from
`perform_boolean_query`: either a ranked posting `(doc_id, tf_weight)` or
a positional posting `(doc_id, positions)`. The source never projects
these tuples to bare doc ids. -/
inductive PostVal (D : Type) : Type
  | rk (doc : D) (w : ℚ)
  | ps (doc : D) (positions : LinkedList ℤ)

/-- Python `==` on the node values: tuples compare componentwise; a float
never equals a `LinkedList`, and two `LinkedList` objects compare by
identity (the operands of `perform_and` always come from distinct loads
or fresh merges, hence are distinct objects). -/
def pyEq {D : Type} [DecidableEq D] : PostVal D → PostVal D → Bool
  | .rk d w, .rk d' w' => decide (d = d') && decide (w = w')
  | _, _ => false

/-- Python `<` on the node values: lexicographic on the tuple; comparing a
`LinkedList` with a float (or with another `LinkedList` object) raises
`TypeError`, embedded as `Except.error`. -/
def pyLt {D : Type} [LinearOrder D] : PostVal D → PostVal D → Except Unit Bool
  | .rk d w, .rk d' w' => if d = d' then .ok (decide (w < w')) else .ok (decide (d < d'))
  | .rk d _, .ps d' _ => if d = d' then .error () else .ok (decide (d < d'))
  | .ps d _, .rk d' _ => if d = d' then .error () else .ok (decide (d < d'))
  | .ps d _, .ps d' _ => if d = d' then .error () else .ok (decide (d < d'))

/-- Python `<=` on the node values, with the same `TypeError` behaviour on
incomparable second components. -/
def pyLe {D : Type} [LinearOrder D] : PostVal D → PostVal D → Except Unit Bool
  | .rk d w, .rk d' w' => if d = d' then .ok (decide (w ≤ w')) else .ok (decide (d < d'))
  | .rk d _, .ps d' _ => if d = d' then .error () else .ok (decide (d < d'))
  | .ps d _, .rk d' _ => if d = d' then .error () else .ok (decide (d < d'))
  | .ps d _, .ps d' _ => if d = d' then .error () else .ok (decide (d < d'))

/-- `perform_and` exactly as the interpreter runs it on the heterogeneous
tuple values produced by `perform_boolean_query`: comparisons follow
`pyEq`/`pyLt`/`pyLe` and any `TypeError` aborts the loop. -/
def performAndE {D : Type} [LinearOrder D] (A B : LinkedList (PostVal D)) :
    Nat → Nat → Nat → Except Unit (List (PostVal D))
  | 0, _, _ => .ok []
  | fuel + 1, i, j =>
    match A[i]?, B[j]? with
    | some a, some b =>
      if pyEq a.1 b.1 then
        (performAndE A B fuel (i + 1) (j + 1)).map (fun r => a.1 :: r)
      else
        match pyLt a.1 b.1 with
        | .error e => .error e
        | .ok true =>
          match a.2 with
          | some s =>
            match A[s]? with
            | some a2 =>
              match pyLe a2.1 b.1 with
              | .error e => .error e
              | .ok true => performAndE A B fuel s j
              | .ok false => performAndE A B fuel (i + 1) j
            | none => .error ()
          | none => performAndE A B fuel (i + 1) j
        | .ok false =>
          match b.2 with
          | some s =>
            match B[s]? with
            | some b2 =>
              match pyLe b2.1 a.1 with
              | .error e => .error e
              | .ok true => performAndE A B fuel i s
              | .ok false => performAndE A B fuel i (j + 1)
            | none => .error ()
          | none => performAndE A B fuel i (j + 1)
    | _, _ => .ok []

/-- `get_postings_list` inside `perform_boolean_query`: a phrase yields the
positional postings of `retrieve_phrase`, a term the ranked postings of
`load_postings_list`. In both cases the node values stay `(doc, payload)`
tuples. -/
def get_postings_list {D : Type} [LinearOrder D] (dictionary : Dictionary D) :
    QTok → LinkedList (PostVal D)
  | .phrase ts => (retrieve_phrase dictionary ts).map (fun n => (PostVal.ps n.1.1 n.1.2, n.2))
  | .term t => (load_postings_list dictionary t).map (fun n => (PostVal.rk n.1.1 n.1.2, n.2))

/-- The `for token in tokens[1:]` fold of `perform_boolean_query`, with the
`if not resultant_list: break` short circuit. -/
def pbqFold {D : Type} [LinearOrder D] (dictionary : Dictionary D) :
    LinkedList (PostVal D) → List QTok → Except Unit (LinkedList (PostVal D))
  | acc, [] => .ok acc
  | acc, tok :: rest =>
    if acc.length = 0 then .ok acc
    else
      match performAndE acc (get_postings_list dictionary tok)
          (acc.length + (get_postings_list dictionary tok).length) 0 0 with
      | .ok r => pbqFold dictionary (LinkedList.ofValues r) rest
      | .error e => .error e

/-- `perform_boolean_query` from boolean_retrieval.py: guard against an
empty token list, stable-sort the items by `get_idf` descending, take the
first item's postings and fold the rest through `perform_and`. -/
def perform_boolean_query {D : Type} [LinearOrder D] (tokens : List QTok)
    (dictionary : Dictionary D) : Except Unit (LinkedList (PostVal D)) :=
  if tokens.isEmpty then .ok []
  else
    match sortDescBy (get_idf dictionary) tokens with
    | [] => .ok []
    | t0 :: rest => pbqFold dictionary (get_postings_list dictionary t0) rest

/-- The `scores = defaultdict(float)` accumulation of `get_relevant_docs`:
`scores[doc_id] += factor * tf_d * idf`, keeping dict insertion order. -/
def addScore {D : Type} [DecidableEq D] (scores : List (D × ℚ)) (doc : D) (delta : ℚ) :
    List (D × ℚ) :=
  if scores.any (fun kv => decide (kv.1 = doc)) then
    scores.map (fun kv => if kv.1 = doc then (kv.1, kv.2 + delta) else kv)
  else scores ++ [(doc, delta)]

/-- The scoring loops of `get_relevant_docs` (ranked_retrieval.py): for
each query term present in the dictionary, walk its ranked postings and
accumulate `factor * tf_d * idf` per document. The resulting association
list records the dict's insertion order. -/
def accumulate_scores {D : Type} [DecidableEq D] (query_vector : List (String × ℚ))
    (dictionary : Dictionary D) : List (D × ℚ) :=
  query_vector.foldl
    (fun acc tf =>
      match dictionary.lookup tf.1 with
      | none => acc
      | some e => (e.2.1.values).foldl (fun acc2 p => addScore acc2 p.1 (tf.2 * p.2 * e.1)) acc)
    []

/-- The module constant `THRESHOLD = 0` of ranked_retrieval.py. -/
def THRESHOLD : ℚ := 0

/-- The `normalized_scores` generator of `get_relevant_docs`: divide each
accumulated score by the document's vector length. (`vector_lengths`
covers every scored document in any indexed corpus; the embedding defaults
a missing length to `0`.) -/
def normalized_scores_of {D : Type} [DecidableEq D] (query_vector : List (String × ℚ))
    (dictionary : Dictionary D) (vector_lengths : List (D × ℚ)) : List (D × ℚ) :=
  (accumulate_scores query_vector dictionary).map
    (fun kv => (kv.1, kv.2 / ((vector_lengths.lookup kv.1).getD 0)))

/-- The tail of `get_relevant_docs`, from the `scores` accumulation to the
output LinkedList: normalize, `sorted(…, key=lambda x: x[1],
reverse=True)`, keep scores above `THRESHOLD`, extend into a fresh
LinkedList. (The query-expansion and Rocchio stages that precede this in
the source only transform `query_vector`, which is taken as input here.) -/
def get_relevant_docs_core {D : Type} [DecidableEq D] (query_vector : List (String × ℚ))
    (dictionary : Dictionary D) (vector_lengths : List (D × ℚ)) : LinkedList D :=
  let normalized_scores :=
    sortDescBy Prod.snd (normalized_scores_of query_vector dictionary vector_lengths)
  LinkedList.ofValues ((normalized_scores.filter (fun kv => THRESHOLD < kv.2)).map Prod.fst)

/-- Modelled from the spec: "sort DocIds by score descending. Ties are
broken by DocId ascending" — insertion respecting the strict ordering key
`(−score, doc_id ascending)`. -/
def specInsertRanked {D : Type} [LinearOrder D] (x : D × ℚ) : List (D × ℚ) → List (D × ℚ)
  | [] => [x]
  | y :: ys =>
    if y.2 < x.2 ∨ (x.2 = y.2 ∧ x.1 ≤ y.1) then x :: y :: ys else y :: specInsertRanked x ys

/-- Modelled from the spec: the ranked scorer's output with the ordering
"strictly determined by `(−score, doc_id_ascending)`" — same scores, same
threshold, but every score tie broken by DocId ascending. -/
def specRanking {D : Type} [LinearOrder D] (query_vector : List (String × ℚ))
    (dictionary : Dictionary D) (vector_lengths : List (D × ℚ)) : List D :=
  let ranked := (normalized_scores_of query_vector dictionary vector_lengths).foldr
    specInsertRanked []
  (ranked.filter (fun kv => THRESHOLD < kv.2)).map Prod.fst

/-- A Python `collections.Counter` with rational counts: an association
list with pairwise-distinct keys, kept in insertion order. A missing key
counts as `0`. -/
abbrev PyCounter : Type := List (String × ℚ)

/-- `counter[k]`: the stored count, or `0` for a missing key. -/
def cGet (c : PyCounter) (k : String) : ℚ := (c.lookup k).getD 0

/-- `dict[k] = v`: overwrite in place if the key exists (keeping its
position), otherwise append the new key. -/
def dictSet (c : PyCounter) (k : String) (v : ℚ) : PyCounter :=
  if c.any (fun kv => kv.1 == k) then c.map (fun kv => if kv.1 == k then (k, v) else kv)
  else c ++ [(k, v)]

/-- `Counter._keep_positive`: drop every entry whose count is `≤ 0`. -/
def keepPositive (c : PyCounter) : PyCounter := c.filter (fun kv => decide (0 < kv.2))

/-- `Counter.__iadd__` (the `relevant_docs_sum += …` of
`rocchio_algorithm`): add the other counter's entries into `self`, then
keep only positive counts. -/
def counterIAdd (self other : PyCounter) : PyCounter :=
  keepPositive (other.foldl (fun acc kv => dictSet acc kv.1 (kv.2 + cGet acc kv.1)) self)

/-- `Counter.__add__` (the `normalized_query + relevant_docs_centroid` of
`rocchio_algorithm`): sum common keys keeping only positive results, then
append the keys only in `other` whose count is positive. -/
def counterAdd (self other : PyCounter) : PyCounter :=
  (self.filterMap fun kv =>
      let newcount := kv.2 + cGet other kv.1
      if 0 < newcount then some (kv.1, newcount) else none)
  ++ other.filter (fun kv => !(self.any (fun kv2 => kv2.1 == kv.1)) && decide (0 < kv.2))

/-- The document-vector dictionary: DocId ↦ decoded raw-count vector (the
`(offset, length)` slice plus unpickling of the source is embedded as the
record itself). -/
abbrev DocVectors (D : Type) : Type := List (D × PyCounter)

/-- `load_document_vector` from search_helpers.py: an empty Counter when
the DocId is missing from the dictionary, otherwise the decoded vector. -/
def load_document_vector {D : Type} [DecidableEq D] (doc_id : D)
    (document_vector_dictionary : DocVectors D) : PyCounter :=
  match document_vector_dictionary.lookup doc_id with
  | some v => v
  | none => []

/-- `rocchio_algorithm` from ranked_retrieval.py: sum the relevant
documents' vectors, scale by `beta / |R|` into the centroid, scale the
query by `alpha`, and add the two Counters. (The division by
`len(relevant_doc_ids)` is only reached when the sum is non-empty, hence
`relevant_doc_ids` is non-empty; `ℚ` division is total here.) -/
def rocchio_algorithm {D : Type} [DecidableEq D] (query : PyCounter)
    (relevant_doc_ids : List D) (docs_vector : DocVectors D) (alpha beta : ℚ) : PyCounter :=
  let relevant_docs_sum := relevant_doc_ids.foldl
    (fun acc d => counterIAdd acc (load_document_vector d docs_vector)) []
  let relevant_docs_centroid := relevant_docs_sum.map
    (fun kv => (kv.1, beta * kv.2 / (relevant_doc_ids.length : ℚ)))
  let normalized_query := query.map (fun kv => (kv.1, alpha * kv.2))
  counterAdd normalized_query relevant_docs_centroid

/-- `QueryType` from data_structures.py. -/
inductive QueryType : Type
  | BOOLEAN
  | FREE_TEXT

/-- A Python runtime error relevant to the embedded fragment. -/
inductive PyErr : Type
  | typeError

/-- Character loop of `csv.reader(…, delimiter=' ', quotechar='"')` on one
row: a quote toggles quoted mode, an unquoted space ends the field. -/
def csvSplitGo : List Char → List Char → List String → Bool → List String
  | [], cur, acc, _ => acc ++ [String.mk cur.reverse]
  | c :: rest, cur, acc, inQuote =>
    if c = '"' then csvSplitGo rest cur acc (!inQuote)
    else if c = ' ' ∧ inQuote = false then
      csvSplitGo rest [] (acc ++ [String.mk cur.reverse]) inQuote
    else csvSplitGo rest (c :: cur) acc inQuote

/-- `list(csv.reader([query], delimiter=' ', quotechar='"'))[0]`: split one
line into space-delimited, double-quote-grouped elements (an empty line
yields an empty row). -/
def csvSplit (s : String) : List String :=
  if s.data.isEmpty then [] else csvSplitGo s.data [] [] false

/-- Character loop of Python's `str.split()` (no argument): split on runs
of whitespace, producing no empty fields. -/
def pySplitGo : List Char → List Char → List String → List String
  | [], [], acc => acc
  | [], cur, acc => acc ++ [String.mk cur.reverse]
  | c :: rest, cur, acc =>
    if c = ' ' then
      match cur with
      | [] => pySplitGo rest [] acc
      | _ => pySplitGo rest [] (acc ++ [String.mk cur.reverse])
    else pySplitGo rest (c :: cur) acc

/-- Python `token.split()` for space-separated tokens. -/
def pySplit (s : String) : List String := pySplitGo s.data [] []

/-- `parse_token` from search.py, parameterised by the abstract `normalise`
stemmer: an element containing a space becomes a `PHRASE` of normalised
sub-tokens, otherwise a `NON_PHRASE` of the normalised element. -/
def parse_token (normalise : String → String) (token : String) : QTok :=
  if token.data.contains ' ' then QTok.phrase ((pySplit token).map normalise)
  else QTok.term (normalise token)

/-- `parse_query` from search.py. The source's boolean branch reads
`return (QueryType.BOOLEAN [parse_token(token) …])` — the missing comma
makes it subscript the enum member `QueryType.BOOLEAN`, which raises
`TypeError` at run time for every query containing a literal `AND`
element; the embedding records that branch as `Except.error`. -/
def parse_query (normalise : String → String) (query : String) :
    Except PyErr (QueryType × List QTok) :=
  let tokens := csvSplit query
  if tokens.contains "AND" then .error .typeError
  else .ok (QueryType.FREE_TEXT, tokens.map (parse_token normalise))

/-- Doc-id projection of a positional postings list, with the inner
position lists also projected to their values. -/
def posProj {D : Type} (l : LinkedList (D × LinkedList ℤ)) : List (D × List ℤ) :=
  l.values.map (fun p => (p.1, p.2.values))

/-- The normalized score the ranked scorer associates to a document
(`0` for documents it never scored). -/
def normScore {D : Type} [DecidableEq D] (query_vector : List (String × ℚ))
    (dictionary : Dictionary D) (vector_lengths : List (D × ℚ)) (d : D) : ℚ :=
  ((normalized_scores_of query_vector dictionary vector_lengths).lookup d).getD 0

/-- Spec scenario S3: corpus `d1 = "a b c"`, `d2 = "a b"`, `d3 = "c a"`
(doc ids embedded as `1, 2, 3`). Every tf weight is `log10(10·1) = 1`.
The idfs are order-preserving stand-ins for `log10(3/df)`:
`idf a = log10(1) = 0` and `idf b = idf c = log10(3/2)`, embedded as `1`
(only comparisons between idf keys influence the run). -/
def s3dictionary : Dictionary ℕ :=
  [("a", (0, LinkedList.ofValues [(1, 1), (2, 1), (3, 1)],
    LinkedList.ofValues
      [(1, LinkedList.ofValues [0]), (2, LinkedList.ofValues [0]),
        (3, LinkedList.ofValues [1])])),
   ("b", (1, LinkedList.ofValues [(1, 1), (2, 1)],
    LinkedList.ofValues [(1, LinkedList.ofValues [1]), (2, LinkedList.ofValues [1])])),
   ("c", (1, LinkedList.ofValues [(1, 1), (3, 1)],
    LinkedList.ofValues [(1, LinkedList.ofValues [2]), (3, LinkedList.ofValues [0])]))]

/-- Spec scenario S3's query `"a b" AND c`, already parsed. -/
def s3tokens : List QTok := [QTok.phrase ["a", "b"], QTok.term "c"]

/-- A two-term query whose two hits tie on score: used to probe the ranked
scorer's tie-breaking. -/
def c4query : List (String × ℚ) := [("t1", 1), ("t2", 1)]

/-- Dictionary for the tie-breaking probe: `t1` hits only doc `2`, `t2`
hits only doc `1`; both idfs and tf weights are `1`. -/
def c4dictionary : Dictionary ℕ :=
  [("t1", (1, LinkedList.ofValues [(2, 1)], [])),
   ("t2", (1, LinkedList.ofValues [(1, 1)], []))]

/-- Vector lengths for the tie-breaking probe: both docs have length `1`. -/
def c4lengths : List (ℕ × ℚ) := [(1, 1), (2, 1)]

/-- A fresh ten-element list: `Nat.sqrt 10 = 3` and `interval = 9 / 3 = 3`,
so `build_skips` is in its skip-placing regime. -/
def tenList : LinkedList ℕ := LinkedList.ofValues (List.range 10)

/-- A fresh sixteen-element list: `Nat.sqrt 16 = 4`, `interval = 15 / 4 = 3`. -/
def sixteenList : LinkedList ℕ := LinkedList.ofValues (List.range 16)

/-- The pure-list counterpart of a full `mergeRun`: each left element is
matched against the first right element with the same key. -/
def joinFilter {α β γ K : Type} [DecidableEq K] (ka : α → K) (kb : β → K)
    (f : α → β → Option γ) (xs : List α) (ys : List β) : List γ :=
  xs.filterMap fun x =>
    match ys.find? (fun y => decide (kb y = ka x)) with
    | some y => f x y
    | none => none

theorem values_ofValues {α : Type} (vs : List α) : (LinkedList.ofValues vs).values = vs := by
  unfold LinkedList.ofValues LinkedList.values
  rw [List.map_map]
  exact List.map_id _

theorem length_ofValues {α : Type} (vs : List α) : (LinkedList.ofValues vs).length = vs.length := by
  simp [LinkedList.ofValues]

theorem values_length {α : Type} (l : LinkedList α) : l.values.length = l.length := by
  simp [LinkedList.values]

theorem skipAt_ofValues {α : Type} (vs : List α) (i : Nat) :
    (LinkedList.ofValues vs).skipAt i = none := by
  unfold LinkedList.skipAt LinkedList.ofValues
  rcases h : (vs.map (fun v => ((v, none) : α × Option Nat)))[i]? with _ | e
  · rfl
  · have he := List.getElem?_eq_some.mp h
    rcases he with ⟨hi, hval⟩
    rw [List.getElem_map] at hval
    simp [← hval]

theorem wfSkips_ofValues {α : Type} (vs : List α) : wfSkips (LinkedList.ofValues vs) := by
  intro i e k h1 h2
  unfold LinkedList.ofValues at h1
  have he := List.getElem?_eq_some.mp h1
  rcases he with ⟨hi, hval⟩
  rw [List.getElem_map] at hval
  rw [← hval] at h2
  simp at h2

theorem sqrt_eq_of_le_lt (k n : Nat) (h1 : k * k ≤ n) (h2 : n < (k + 1) * (k + 1)) :
    Nat.sqrt n = k :=
  le_antisymm (Nat.lt_succ_iff.mp (Nat.sqrt_lt.mpr h2)) (Nat.le_sqrt.mpr h1)

theorem sqrt_four : Nat.sqrt 4 = 2 := sqrt_eq_of_le_lt 2 4 (by norm_num) (by norm_num)

theorem sqrt_six : Nat.sqrt 6 = 2 := sqrt_eq_of_le_lt 2 6 (by norm_num) (by norm_num)

theorem sqrt_ten : Nat.sqrt 10 = 3 := sqrt_eq_of_le_lt 3 10 (by norm_num) (by norm_num)

theorem sqrt_sixteen : Nat.sqrt 16 = 4 := sqrt_eq_of_le_lt 4 16 (by norm_num) (by norm_num)

theorem joinFilter_nil_right {α β γ K : Type} [DecidableEq K] (ka : α → K) (kb : β → K)
    (f : α → β → Option γ) (xs : List α) : joinFilter ka kb f xs [] = [] := by
  unfold joinFilter
  induction xs with
  | nil => rfl
  | cons x xs ih => simp only [List.filterMap_cons, List.find?_nil]; exact ih

theorem joinFilter_cons_left_of_ne {α β γ K : Type} [DecidableEq K] {ka : α → K} {kb : β → K}
    (f : α → β → Option γ) {x0 : α} {xs : List α} {ys : List β}
    (h : ∀ y ∈ ys, kb y ≠ ka x0) :
    joinFilter ka kb f (x0 :: xs) ys = joinFilter ka kb f xs ys := by
  have hf : ys.find? (fun y => decide (kb y = ka x0)) = none :=
    List.find?_eq_none.mpr (fun y hy => by simpa using h y hy)
  simp only [joinFilter, List.filterMap_cons, hf]

theorem joinFilter_cons_right_of_ne {α β γ K : Type} [DecidableEq K] {ka : α → K} {kb : β → K}
    (f : α → β → Option γ) {y0 : β} {xs : List α} {ys : List β}
    (h : ∀ x ∈ xs, kb y0 ≠ ka x) :
    joinFilter ka kb f xs (y0 :: ys) = joinFilter ka kb f xs ys := by
  unfold joinFilter
  apply List.filterMap_congr
  intro x hx
  have hcond : (decide (kb y0 = ka x)) = false := by simpa using h x hx
  simp only [List.find?, hcond]

theorem joinFilter_append_left {α β γ K : Type} [DecidableEq K] (ka : α → K) (kb : β → K)
    (f : α → β → Option γ) (xs1 xs2 : List α) (ys : List β) :
    joinFilter ka kb f (xs1 ++ xs2) ys = joinFilter ka kb f xs1 ys ++ joinFilter ka kb f xs2 ys := by
  unfold joinFilter
  exact List.filterMap_append _ _ _

theorem joinFilter_eq_nil_left {α β γ K : Type} [DecidableEq K] {ka : α → K} {kb : β → K}
    (f : α → β → Option γ) {xs : List α} {ys : List β}
    (h : ∀ x ∈ xs, ∀ y ∈ ys, kb y ≠ ka x) :
    joinFilter ka kb f xs ys = [] := by
  induction xs with
  | nil => rfl
  | cons x xs ih =>
    have hf : ys.find? (fun y => decide (kb y = ka x)) = none :=
      List.find?_eq_none.mpr (fun y hy => by simpa using h x (List.mem_cons_self x xs) y hy)
    simp only [joinFilter, List.filterMap_cons, hf]
    exact ih (fun x' hx' y hy => h x' (List.mem_cons_of_mem _ hx') y hy)

theorem joinFilter_append_right_of_ne {α β γ K : Type} [DecidableEq K] {ka : α → K} {kb : β → K}
    (f : α → β → Option γ) {xs : List α} {ys1 ys2 : List β}
    (h : ∀ y ∈ ys1, ∀ x ∈ xs, kb y ≠ ka x) :
    joinFilter ka kb f xs (ys1 ++ ys2) = joinFilter ka kb f xs ys2 := by
  unfold joinFilter
  apply List.filterMap_congr
  intro x hx
  rw [List.find?_append]
  have hf : ys1.find? (fun y => decide (kb y = ka x)) = none :=
    List.find?_eq_none.mpr (fun y hy => by simpa using h y hy x hx)
  rw [hf]
  rfl

theorem mergeRun_eq {α β γ K : Type} [LinearOrder K] (ka : α → K) (kb : β → K)
    (f : α → β → Option γ) (A : LinkedList α) (B : LinkedList β)
    (hA : A.values.Pairwise (fun x y => ka x < ka y))
    (hB : B.values.Pairwise (fun x y => kb x < kb y))
    (hwA : wfSkips A) (hwB : wfSkips B) :
    ∀ fuel i j, A.length - i + (B.length - j) ≤ fuel →
      mergeRun ka kb f A B fuel i j = joinFilter ka kb f (A.values.drop i) (B.values.drop j) := by
  intro fuel
  induction fuel with
  | zero =>
    intro i j h
    have hi : A.length ≤ i := by omega
    have hd : A.values.drop i = [] := List.drop_eq_nil_of_le (by rw [values_length]; exact hi)
    rw [hd]
    rfl
  | succ fuel ih =>
    intro i j h
    rcases hAi : A[i]? with _ | a
    · have hi : A.length ≤ i := List.getElem?_eq_none_iff.mp hAi
      have hd : A.values.drop i = [] := List.drop_eq_nil_of_le (by rw [values_length]; exact hi)
      rw [hd]
      simp [mergeRun, hAi, joinFilter]
    · rcases hBj : B[j]? with _ | b
      · have hj : B.length ≤ j := List.getElem?_eq_none_iff.mp hBj
        have hd : B.values.drop j = [] :=
          List.drop_eq_nil_of_le (by rw [values_length]; exact hj)
        rw [hd, joinFilter_nil_right]
        simp [mergeRun, hAi, hBj]
      · obtain ⟨hi, hAv⟩ := List.getElem?_eq_some.mp hAi
        obtain ⟨hj, hBv⟩ := List.getElem?_eq_some.mp hBj
        have hiv : i < A.values.length := by rw [values_length]; exact hi
        have hjv : j < B.values.length := by rw [values_length]; exact hj
        have hAvv : A.values[i] = a.1 := by
          unfold LinkedList.values
          rw [List.getElem_map, hAv]
        have hBvv : B.values[j] = b.1 := by
          unfold LinkedList.values
          rw [List.getElem_map, hBv]
        have hdropA : A.values.drop i = a.1 :: A.values.drop (i + 1) := by
          rw [List.drop_eq_getElem_cons hiv, hAvv]
        have hdropB : B.values.drop j = b.1 :: B.values.drop (j + 1) := by
          rw [List.drop_eq_getElem_cons hjv, hBvv]
        have hAtail : ∀ x ∈ A.values.drop (i + 1), ka a.1 < ka x := by
          have hp : (A.values.drop i).Pairwise (fun x y => ka x < ka y) :=
            List.Pairwise.sublist (List.drop_sublist _ _) hA
          rw [hdropA] at hp
          exact (List.pairwise_cons.mp hp).1
        have hBtail : ∀ y ∈ B.values.drop (j + 1), kb b.1 < kb y := by
          have hp : (B.values.drop j).Pairwise (fun x y => kb x < kb y) :=
            List.Pairwise.sublist (List.drop_sublist _ _) hB
          rw [hdropB] at hp
          exact (List.pairwise_cons.mp hp).1
        have hAall : ∀ x ∈ A.values.drop i, ka a.1 ≤ ka x := by
          intro x hx
          rw [hdropA] at hx
          rcases List.mem_cons.mp hx with h' | h'
          · rw [h']
          · exact le_of_lt (hAtail x h')
        have hBall : ∀ y ∈ B.values.drop j, kb b.1 ≤ kb y := by
          intro y hy
          rw [hdropB] at hy
          rcases List.mem_cons.mp hy with h' | h'
          · rw [h']
          · exact le_of_lt (hBtail y h')
        rcases lt_trichotomy (ka a.1) (kb b.1) with hk | hk | hk
        · -- a's key is smaller: the A cursor advances
          have hne : ¬(ka a.1 = kb b.1) := ne_of_lt hk
          have hnextRHS : joinFilter ka kb f (A.values.drop i) (B.values.drop j)
              = joinFilter ka kb f (A.values.drop (i + 1)) (B.values.drop j) := by
            rw [hdropA]
            apply joinFilter_cons_left_of_ne
            intro y hy
            exact ne_of_gt (lt_of_lt_of_le hk (hBall y hy))
          rcases hsk : a.2 with _ | s
          · rw [hnextRHS, ← ih (i + 1) j (by omega)]
            simp [mergeRun, hAi, hBj, hne, hk, hsk]
          · rcases hAs : A[s]? with _ | a2
            · rw [hnextRHS, ← ih (i + 1) j (by omega)]
              simp [mergeRun, hAi, hBj, hne, hk, hsk, hAs]
            · by_cases hle : ka a2.1 ≤ kb b.1
              · obtain ⟨his, hsl⟩ := hwA i a s hAi hsk
                obtain ⟨hsA, hAsv⟩ := List.getElem?_eq_some.mp hAs
                have hsv : s < A.values.length := by rw [values_length]; exact hsl
                have hAsvv : A.values[s] = a2.1 := by
                  unfold LinkedList.values
                  rw [List.getElem_map, hAsv]
                have hskipRHS : joinFilter ka kb f (A.values.drop i) (B.values.drop j)
                    = joinFilter ka kb f (A.values.drop s) (B.values.drop j) := by
                  have hsplit : A.values.drop i
                      = (A.values.drop i).take (s - i) ++ A.values.drop s := by
                    conv_lhs => rw [← List.take_append_drop (s - i) (A.values.drop i)]
                    congr 1
                    rw [List.drop_drop]
                    congr 1
                    omega
                  rw [hsplit, joinFilter_append_left]
                  rw [joinFilter_eq_nil_left f ?hmid, List.nil_append]
                  case hmid =>
                    intro x hx y hy
                    obtain ⟨m, hm, hxm⟩ := List.mem_iff_getElem.mp hx
                    have hmlen : m < s - i := by
                      rw [List.length_take] at hm
                      omega
                    have him : i + m < A.values.length := by omega
                    have hxval : x = A.values[i + m] := by
                      rw [← hxm, List.getElem_take, List.getElem_drop]
                    have hlt : ka x < ka a2.1 := by
                      rw [hxval, ← hAsvv]
                      exact List.pairwise_iff_getElem.mp hA (i + m) s him hsv (by omega)
                    exact ne_of_gt (lt_of_lt_of_le (lt_of_lt_of_le hlt hle) (hBall y hy))
                rw [hskipRHS, ← ih s j (by omega)]
                simp [mergeRun, hAi, hBj, hne, hk, hsk, hAs, hle]
              · rw [hnextRHS, ← ih (i + 1) j (by omega)]
                simp [mergeRun, hAi, hBj, hne, hk, hsk, hAs, hle]
        · -- equal keys: match, both cursors advance
          have hfind : (b.1 :: B.values.drop (j + 1)).find?
              (fun y => decide (kb y = ka a.1)) = some b.1 := by
            apply List.find?_cons_of_pos
            simp [hk]
          have hRHS : joinFilter ka kb f (a.1 :: A.values.drop (i + 1))
                (b.1 :: B.values.drop (j + 1))
              = (f a.1 b.1).toList
                ++ joinFilter ka kb f (A.values.drop (i + 1)) (b.1 :: B.values.drop (j + 1)) := by
            cases hfab : f a.1 b.1 with
            | none => simp [joinFilter, List.filterMap_cons, hfind, hfab]
            | some g => simp [joinFilter, List.filterMap_cons, hfind, hfab]
          have htail : joinFilter ka kb f (A.values.drop (i + 1)) (b.1 :: B.values.drop (j + 1))
              = joinFilter ka kb f (A.values.drop (i + 1)) (B.values.drop (j + 1)) := by
            apply joinFilter_cons_right_of_ne
            intro x hx
            exact ne_of_lt (hk ▸ hAtail x hx)
          rw [hdropA, hdropB, hRHS, htail, ← ih (i + 1) (j + 1) (by omega)]
          simp [mergeRun, hAi, hBj, hk]
        · -- b's key is smaller: the B cursor advances
          have hne : ¬(ka a.1 = kb b.1) := ne_of_gt hk
          have hnlt : ¬(ka a.1 < kb b.1) := not_lt.mpr (le_of_lt hk)
          have hnextRHS : joinFilter ka kb f (A.values.drop i) (B.values.drop j)
              = joinFilter ka kb f (A.values.drop i) (B.values.drop (j + 1)) := by
            rw [hdropB]
            apply joinFilter_cons_right_of_ne
            intro x hx
            exact ne_of_lt (lt_of_lt_of_le hk (hAall x hx))
          rcases hsk : b.2 with _ | s
          · rw [hnextRHS, ← ih i (j + 1) (by omega)]
            simp [mergeRun, hAi, hBj, hne, hnlt, hsk]
          · rcases hBs : B[s]? with _ | b2
            · rw [hnextRHS, ← ih i (j + 1) (by omega)]
              simp [mergeRun, hAi, hBj, hne, hnlt, hsk, hBs]
            · by_cases hle : kb b2.1 ≤ ka a.1
              · obtain ⟨hjs, hslB⟩ := hwB j b s hBj hsk
                obtain ⟨hsB, hBsv⟩ := List.getElem?_eq_some.mp hBs
                have hsvB : s < B.values.length := by rw [values_length]; exact hslB
                have hBsvv : B.values[s] = b2.1 := by
                  unfold LinkedList.values
                  rw [List.getElem_map, hBsv]
                have hskipRHS : joinFilter ka kb f (A.values.drop i) (B.values.drop j)
                    = joinFilter ka kb f (A.values.drop i) (B.values.drop s) := by
                  have hsplit : B.values.drop j
                      = (B.values.drop j).take (s - j) ++ B.values.drop s := by
                    conv_lhs => rw [← List.take_append_drop (s - j) (B.values.drop j)]
                    congr 1
                    rw [List.drop_drop]
                    congr 1
                    omega
                  rw [hsplit]
                  apply joinFilter_append_right_of_ne
                  intro y hy x hx
                  obtain ⟨m, hm, hym⟩ := List.mem_iff_getElem.mp hy
                  have hmlen : m < s - j := by
                    rw [List.length_take] at hm
                    omega
                  have hjm : j + m < B.values.length := by omega
                  have hyval : y = B.values[j + m] := by
                    rw [← hym, List.getElem_take, List.getElem_drop]
                  have hlt : kb y < kb b2.1 := by
                    rw [hyval, ← hBsvv]
                    exact List.pairwise_iff_getElem.mp hB (j + m) s hjm hsvB (by omega)
                  exact ne_of_lt (lt_of_lt_of_le (lt_of_lt_of_le hlt hle) (hAall x hx))
                rw [hskipRHS, ← ih i s (by omega)]
                simp [mergeRun, hAi, hBj, hne, hnlt, hsk, hBs, hle]
              · rw [hnextRHS, ← ih i (j + 1) (by omega)]
                simp [mergeRun, hAi, hBj, hne, hnlt, hsk, hBs, hle]

theorem joinFilter_inter {α : Type} [DecidableEq α] (xs ys : List α) :
    joinFilter id id (fun a _ => some a) xs ys = xs.filter (fun x => decide (x ∈ ys)) := by
  induction xs with
  | nil => rfl
  | cons x xs ih =>
    simp only [joinFilter, List.filterMap_cons, id_eq] at ih ⊢
    rw [List.filter_cons]
    rcases hf : ys.find? (fun y => decide (y = x)) with _ | y
    · have hnm : decide (x ∈ ys) = false := decide_eq_false (by
        intro hm
        have := List.find?_eq_none.mp hf x hm
        simp at this)
      simp [hnm, ih]
    · have hyx : y = x := by simpa using List.find?_some hf
      have hm : decide (x ∈ ys) = true := decide_eq_true (hyx ▸ List.mem_of_find?_eq_some hf)
      simp [hm, hyx, ih]

theorem perform_and_values {α : Type} [LinearOrder α] (A B : LinkedList α)
    (hA : A.values.Pairwise (· < ·)) (hB : B.values.Pairwise (· < ·))
    (hwA : wfSkips A) (hwB : wfSkips B) :
    (perform_and A B).values = A.values.filter (fun x => decide (x ∈ B.values)) := by
  unfold perform_and
  rw [values_ofValues]
  rw [mergeRun_eq id id (fun a _ => some a) A B hA hB hwA hwB
    (A.length + B.length) 0 0 (by omega)]
  simp only [List.drop_zero]
  exact joinFilter_inter _ _

theorem joinFilter_adjacent (xs ys : List ℤ) (hx : xs.Pairwise (· < ·))
    (hy : ys.Pairwise (· < ·)) :
    joinFilter id (fun v => v - 1) (fun _ y => some y) xs ys
      = ys.filter (fun p => decide ((p - 1) ∈ xs)) := by
  have h1 : joinFilter id (fun v => v - 1) (fun _ y => some y) xs ys
      = (xs.filter (fun x => decide ((x + 1) ∈ ys))).map (fun x => x + 1) := by
    clear hx
    induction xs with
    | nil => rfl
    | cons x zs ih =>
      simp only [joinFilter, List.filterMap_cons, id_eq] at ih ⊢
      rw [List.filter_cons]
      rcases hf : ys.find? (fun y => decide (y - 1 = x)) with _ | y
      · have hnm : decide ((x + 1) ∈ ys) = false := decide_eq_false (by
          intro hm
          have h2 := List.find?_eq_none.mp hf (x + 1) hm
          simp at h2)
        simp [hnm, ih]
      · have hy1 : y = x + 1 := by
          have h2 := List.find?_some hf
          simp at h2
          omega
        have hm : decide ((x + 1) ∈ ys) = true :=
          decide_eq_true (hy1 ▸ List.mem_of_find?_eq_some hf)
        simp [hm, hy1, ih]
  rw [h1]
  have hpl : ((xs.filter (fun x => decide ((x + 1) ∈ ys))).map (fun x => x + 1)).Pairwise
      (· < ·) := by
    have hfp : (xs.filter (fun x => decide ((x + 1) ∈ ys))).Pairwise (· < ·) :=
      List.Pairwise.sublist (List.filter_sublist _) hx
    exact hfp.map _ (fun a b hab => by omega)
  have hpr : (ys.filter (fun p => decide ((p - 1) ∈ xs))).Pairwise (· < ·) :=
    List.Pairwise.sublist (List.filter_sublist _) hy
  have hnodupL := hpl.imp (fun h => ne_of_lt h)
  have hnodupR := hpr.imp (fun h => ne_of_lt h)
  have hperm : ((xs.filter (fun x => decide ((x + 1) ∈ ys))).map (fun x => x + 1)).Perm
      (ys.filter (fun p => decide ((p - 1) ∈ xs))) := by
    rw [List.perm_ext_iff_of_nodup hnodupL hnodupR]
    intro a
    simp only [List.mem_map, List.mem_filter, decide_eq_true_eq]
    constructor
    · rintro ⟨x, ⟨hx1, hx2⟩, rfl⟩
      refine ⟨hx2, ?_⟩
      have : x + 1 - 1 = x := by ring
      rw [this]
      exact hx1
    · rintro ⟨h2, h1⟩
      refine ⟨a - 1, ⟨h1, ?_⟩, by ring⟩
      have : a - 1 + 1 = a := by ring
      rw [this]
      exact h2
  exact List.eq_of_perm_of_sorted hperm (hpl.imp (fun h => le_of_lt h))
    (hpr.imp (fun h => le_of_lt h))

theorem merge_positions_values (before after : LinkedList ℤ)
    (hb : before.values.Pairwise (· < ·)) (ha : after.values.Pairwise (· < ·))
    (hwb : wfSkips before) (hwa : wfSkips after) :
    (merge_positions before after).values
      = after.values.filter (fun p => decide ((p - 1) ∈ before.values)) := by
  unfold merge_positions
  rw [values_ofValues]
  have ha' : after.values.Pairwise (fun x y => x - 1 < y - 1) :=
    ha.imp (fun h => by omega)
  rw [mergeRun_eq id (fun v => v - 1) (fun _ y => some y) before after hb ha' hwb hwa
    (before.length + after.length) 0 0 (by omega)]
  simp only [List.drop_zero]
  exact joinFilter_adjacent _ _ hb ha

theorem perform_and_nil_left {α : Type} [LinearOrder α] (B : LinkedList α) :
    perform_and [] B = [] := by
  cases B with
  | nil => rfl
  | cons b bs => simp [perform_and, mergeRun, LinkedList.ofValues]

theorem perform_and_nil_right {α : Type} [LinearOrder α] (A : LinkedList α) :
    perform_and A [] = [] := by
  cases A with
  | nil => rfl
  | cons a as => simp [perform_and, mergeRun, LinkedList.ofValues]

/-- C2: for strictly ascending operands (with or without well-formed skip
pointers), `perform_and` returns exactly the common values, ascending and
duplicate-free; `AND(A, B) = [3, 7, 11]` on the spec's S1 lists after
`build_skips`; and an empty operand yields an empty result. -/
theorem c2_perform_and_correct :
    (∀ (α : Type) [inst : LinearOrder α] (A B : LinkedList α),
      A.values.Pairwise (· < ·) → B.values.Pairwise (· < ·) →
      wfSkips A → wfSkips B →
      ((perform_and A B).values = A.values.filter (fun x => decide (x ∈ B.values)) ∧
        (perform_and A B).values.Pairwise (· < ·) ∧
        ∀ x, x ∈ (perform_and A B).values ↔ x ∈ A.values ∧ x ∈ B.values)) ∧
    perform_and (build_skips (LinkedList.ofValues [1, 3, 5, 7, 9, 11]))
        (build_skips (LinkedList.ofValues [2, 3, 7, 11]))
      = LinkedList.ofValues ([3, 7, 11] : List ℕ) ∧
    (∀ B : LinkedList ℕ, perform_and [] B = []) ∧
    (∀ A : LinkedList ℕ, perform_and A [] = []) := by
  refine ⟨?_, ?_, fun B => perform_and_nil_left B, fun A => perform_and_nil_right A⟩
  · intro α inst A B hA hB hwA hwB
    have hv := perform_and_values A B hA hB hwA hwB
    refine ⟨hv, ?_, ?_⟩
    · rw [hv]
      exact List.Pairwise.sublist (List.filter_sublist _) hA
    · intro x
      rw [hv]
      simp [List.mem_filter]
  · have hlen6 : (LinkedList.ofValues ([1, 3, 5, 7, 9, 11] : List ℕ)).length = 6 := by decide
    have hlen4 : (LinkedList.ofValues ([2, 3, 7, 11] : List ℕ)).length = 4 := by decide
    have e1 : build_skips (LinkedList.ofValues ([1, 3, 5, 7, 9, 11] : List ℕ))
        = LinkedList.ofValues [1, 3, 5, 7, 9, 11] := by
      simp only [build_skips, hlen6, sqrt_six]
      norm_num
    have e2 : build_skips (LinkedList.ofValues ([2, 3, 7, 11] : List ℕ))
        = LinkedList.ofValues [2, 3, 7, 11] := by
      simp only [build_skips, hlen4, sqrt_four]
      norm_num
    rw [e1, e2]
    decide

/-- Witness for C2: the general conjunct applied to the concrete ascending
skipless lists `[1, 3, 5]` and `[3, 4]`. -/
theorem c2_perform_and_correct_witness :
    (perform_and (LinkedList.ofValues [1, 3, 5]) (LinkedList.ofValues ([3, 4] : List ℕ))).values
      = (LinkedList.ofValues ([1, 3, 5] : List ℕ)).values.filter
          (fun x => decide (x ∈ (LinkedList.ofValues ([3, 4] : List ℕ)).values)) :=
  (c2_perform_and_correct.1 ℕ (LinkedList.ofValues [1, 3, 5]) (LinkedList.ofValues [3, 4])
    (by decide) (by decide) (wfSkips_ofValues _) (wfSkips_ofValues _)).1

/-- C3: for positional postings lists ascending by doc id with ascending
position lists, `merge_positional_indexes` emits, for each doc present in
both operands, the pair of the doc with the ascending list of positions
`p` such that `p - 1` occurs in `before`'s positions and `p` in `after`'s,
and omits the doc when that list is empty. -/
theorem c3_merge_positional_indexes_correct :
    ∀ (D : Type) [inst : LinearOrder D] (before after : LinkedList (D × LinkedList ℤ)),
      before.values.Pairwise (fun x y => x.1 < y.1) →
      after.values.Pairwise (fun x y => x.1 < y.1) →
      wfSkips before → wfSkips after →
      (∀ p ∈ before.values, p.2.values.Pairwise (· < ·) ∧ wfSkips p.2) →
      (∀ p ∈ after.values, p.2.values.Pairwise (· < ·) ∧ wfSkips p.2) →
      posProj (merge_positional_indexes before after)
        = before.values.filterMap (fun bp =>
            match after.values.find? (fun ap => decide (ap.1 = bp.1)) with
            | some ap =>
              match ap.2.values.filter (fun p => decide ((p - 1) ∈ bp.2.values)) with
              | [] => none
              | m => some (bp.1, m)
            | none => none) := by
  intro D inst before after hb ha hwb hwa hinb hina
  unfold posProj merge_positional_indexes
  rw [values_ofValues]
  rw [mergeRun_eq Prod.fst Prod.fst _ before after hb ha hwb hwa
    (before.length + after.length) 0 0 (by omega)]
  simp only [List.drop_zero]
  unfold joinFilter
  rw [List.map_filterMap]
  apply List.filterMap_congr
  intro bp hbp
  rcases hf : after.values.find? (fun ap => decide (ap.1 = bp.1)) with _ | ap
  · simp [hf]
  · have hap : ap ∈ after.values := List.mem_of_find?_eq_some hf
    obtain ⟨hbp1, hbp2⟩ := hinb bp hbp
    obtain ⟨hap1, hap2⟩ := hina ap hap
    have hmv : (merge_positions bp.2 ap.2).values
        = ap.2.values.filter (fun p => decide ((p - 1) ∈ bp.2.values)) :=
      merge_positions_values _ _ hbp1 hap1 hbp2 hap2
    simp only [hf]
    rcases hm : merge_positions bp.2 ap.2 with _ | ⟨q, m⟩
    · have hfl : ap.2.values.filter (fun p => decide ((p - 1) ∈ bp.2.values)) = [] := by
        rw [← hmv, hm]
        rfl
      simp [hm, hfl]
    · rcases hfl : ap.2.values.filter (fun p => decide ((p - 1) ∈ bp.2.values)) with _ | ⟨r, rs⟩
      · exfalso
        rw [hm, hfl] at hmv
        simp [LinkedList.values] at hmv
      · have hv : LinkedList.values (q :: m) = r :: rs := by
          rw [hm] at hmv
          rw [hmv, hfl]
        simp [hm, hfl, hv]

/-- Any freshly built positional list of rows with ascending position
lists satisfies the per-row hypotheses of the positional merge. -/
theorem innerOk_ofValues {D : Type} (rows : List (D × List ℤ))
    (h : ∀ r ∈ rows, r.2.Pairwise (· < ·)) :
    ∀ p ∈ (LinkedList.ofValues (rows.map (fun r => (r.1, LinkedList.ofValues r.2)))).values,
      p.2.values.Pairwise (· < ·) ∧ wfSkips p.2 := by
  intro p hp
  rw [values_ofValues] at hp
  obtain ⟨r, hr, rfl⟩ := List.mem_map.mp hp
  exact ⟨by rw [values_ofValues]; exact h r hr, wfSkips_ofValues _⟩

/-- Witness for C3: the spec's S2 instance — `quick` occurs at positions
`{1}, {2}, {0}` and `brown` at `{2}, {1}, {1}` in docs `1, 2, 3`; the merge
keeps docs `1` and `3` with the positions of the second token. -/
theorem c3_merge_positional_indexes_correct_witness :
    posProj (merge_positional_indexes
        (LinkedList.ofValues (([(1, [1]), (2, [2]), (3, [0])] : List (ℕ × List ℤ)).map
          (fun r => (r.1, LinkedList.ofValues r.2))))
        (LinkedList.ofValues (([(1, [2]), (2, [1]), (3, [1])] : List (ℕ × List ℤ)).map
          (fun r => (r.1, LinkedList.ofValues r.2)))))
      = [(1, [2]), (3, [1])] := by
  have h := c3_merge_positional_indexes_correct ℕ
    (LinkedList.ofValues (([(1, [1]), (2, [2]), (3, [0])] : List (ℕ × List ℤ)).map
      (fun r => (r.1, LinkedList.ofValues r.2))))
    (LinkedList.ofValues (([(1, [2]), (2, [1]), (3, [1])] : List (ℕ × List ℤ)).map
      (fun r => (r.1, LinkedList.ofValues r.2))))
    (by decide) (by decide) (wfSkips_ofValues _) (wfSkips_ofValues _)
    (innerOk_ofValues _ (by decide)) (innerOk_ofValues _ (by decide))
  rw [h]
  decide

theorem setSkip_getElem? {α : Type} (l : LinkedList α) (i0 t i : Nat) :
    (setSkip l i0 t)[i]? = if i = i0 then l[i]?.map (fun e => (e.1, some t)) else l[i]? := by
  unfold setSkip
  rcases h : l[i0]? with _ | e
  · by_cases hi : i = i0
    · subst hi
      rw [if_pos rfl, h]
      rfl
    · rw [if_neg hi]
  · by_cases hi : i = i0
    · subst hi
      rw [if_pos rfl, h]
      have hlen : i < l.length := (List.getElem?_eq_some.mp h).1
      rw [List.getElem?_set_self hlen]
      rfl
    · rw [if_neg hi]
      exact List.getElem?_set_ne (fun hh => hi hh.symm)

theorem buildSkipsLoop_range {α : Type} (I : Nat) (hI : 0 < I) :
    ∀ (k : Nat) (l : LinkedList α) (p i : Nat),
      (buildSkipsLoop l (p * I) ((List.range k).map (fun m => (p + 1 + m) * I)))[i]?
        = if ∃ m, m < k ∧ i = (p + m) * I
          then l[i]?.map (fun e => (e.1, some (i + I)))
          else l[i]? := by
  intro k
  induction k with
  | zero =>
    intro l p i
    have hno : ¬ ∃ m, m < 0 ∧ i = (p + m) * I := by
      rintro ⟨m, hm, _⟩
      omega
    rw [if_neg hno]
    rfl
  | succ k ih =>
    intro l p i
    have hrange : (List.range (k + 1)).map (fun m => (p + 1 + m) * I)
        = (p + 1) * I :: (List.range k).map (fun m => (p + 2 + m) * I) := by
      have hhead : (p + 1 + 0) * I = (p + 1) * I := by norm_num
      have htail : List.map ((fun m => (p + 1 + m) * I) ∘ Nat.succ) (List.range k)
          = List.map (fun m => (p + 2 + m) * I) (List.range k) := by
        apply List.map_congr_left
        intro m _
        show (p + 1 + (m + 1)) * I = (p + 2 + m) * I
        congr 1
        omega
      rw [List.range_succ_eq_map, List.map_cons, List.map_map, hhead, htail]
    rw [hrange]
    show (buildSkipsLoop (setSkip l (p * I) ((p + 1) * I)) ((p + 1) * I)
        ((List.range k).map (fun m => (p + 2 + m) * I)))[i]? = _
    have hstep := ih (setSkip l (p * I) ((p + 1) * I)) (p + 1) i
    have harg : (List.range k).map (fun m => (p + 1 + 1 + m) * I)
        = (List.range k).map (fun m => (p + 2 + m) * I) := by
      apply List.map_congr_left
      intro m _
      ring
    rw [harg] at hstep
    rw [hstep]
    by_cases h0 : i = p * I
    · have hnot : ¬ ∃ m, m < k ∧ i = (p + 1 + m) * I := by
        rintro ⟨m, hm, he⟩
        have hlt : p * I < (p + 1 + m) * I := (Nat.mul_lt_mul_right hI).mpr (by omega)
        omega
      have hyes : ∃ m, m < k + 1 ∧ i = (p + m) * I := ⟨0, by omega, by simpa using h0⟩
      rw [if_neg hnot, if_pos hyes]
      rw [setSkip_getElem?, if_pos h0]
      subst h0
      have : (p + 1) * I = p * I + I := by ring
      rw [this]
    · by_cases h1 : ∃ m, m < k ∧ i = (p + 1 + m) * I
      · have hyes : ∃ m, m < k + 1 ∧ i = (p + m) * I := by
          obtain ⟨m, hm, he⟩ := h1
          refine ⟨m + 1, by omega, ?_⟩
          rw [he]
          congr 1
          omega
        rw [if_pos h1, if_pos hyes]
        rw [setSkip_getElem?, if_neg h0]
      · have hno : ¬ ∃ m, m < k + 1 ∧ i = (p + m) * I := by
          rintro ⟨m, hm, he⟩
          rcases m with _ | m'
          · exact h0 (by simpa using he)
          · refine h1 ⟨m', by omega, ?_⟩
            rw [he]
            congr 1
            omega
        rw [if_neg h1, if_neg hno]
        rw [setSkip_getElem?, if_neg h0]

theorem build_skips_getElem? {α : Type} (l : LinkedList α)
    (hk : Nat.sqrt l.length ≠ 0) (hI : 3 ≤ (l.length - 1) / Nat.sqrt l.length) (i : Nat) :
    (build_skips l)[i]? =
      if ∃ m, m < Nat.sqrt l.length ∧ i = m * ((l.length - 1) / Nat.sqrt l.length)
      then l[i]?.map (fun e => (e.1, some (i + (l.length - 1) / Nat.sqrt l.length)))
      else l[i]? := by
  have h2 : ¬ (l.length - 1) / Nat.sqrt l.length < 3 := by omega
  show (if Nat.sqrt l.length = 0 then l
      else if (l.length - 1) / Nat.sqrt l.length < 3 then l
      else buildSkipsLoop l 0 ((List.range (Nat.sqrt l.length)).map
        (fun m => (m + 1) * ((l.length - 1) / Nat.sqrt l.length))))[i]? = _
  rw [if_neg hk, if_neg h2]
  have hloop := buildSkipsLoop_range ((l.length - 1) / Nat.sqrt l.length) (by omega)
    (Nat.sqrt l.length) l 0 i
  have harg : (List.range (Nat.sqrt l.length)).map
      (fun m => (0 + 1 + m) * ((l.length - 1) / Nat.sqrt l.length))
      = (List.range (Nat.sqrt l.length)).map
        (fun m => (m + 1) * ((l.length - 1) / Nat.sqrt l.length)) := by
    apply List.map_congr_left
    intro m _
    congr 1
    omega
  rw [harg] at hloop
  simp only [Nat.zero_mul, Nat.zero_add] at hloop
  exact hloop

theorem setSkip_values {α : Type} (l : LinkedList α) (i0 t : Nat) :
    (setSkip l i0 t).values = l.values := by
  apply List.ext_getElem?
  intro n
  unfold LinkedList.values
  rw [List.getElem?_map, List.getElem?_map, setSkip_getElem?]
  by_cases hn : n = i0
  · rw [if_pos hn]
    cases h : l[n]? <;> rfl
  · rw [if_neg hn]

theorem buildSkipsLoop_values {α : Type} :
    ∀ (ts : List Nat) (l : LinkedList α) (prev : Nat),
      (buildSkipsLoop l prev ts).values = l.values := by
  intro ts
  induction ts with
  | nil => intro l prev; rfl
  | cons t ts ih =>
    intro l prev
    show (buildSkipsLoop (setSkip l prev t) t ts).values = l.values
    rw [ih, setSkip_values]

theorem build_skips_values {α : Type} (l : LinkedList α) :
    (build_skips l).values = l.values := by
  show (if Nat.sqrt l.length = 0 then l
      else if (l.length - 1) / Nat.sqrt l.length < 3 then l
      else buildSkipsLoop l 0 ((List.range (Nat.sqrt l.length)).map
        (fun m => (m + 1) * ((l.length - 1) / Nat.sqrt l.length)))).values = l.values
  split_ifs with h1 h2
  · rfl
  · rfl
  · exact buildSkipsLoop_values _ _ _

theorem build_skips_noop {α : Type} (l : LinkedList α)
    (h : Nat.sqrt l.length = 0 ∨ (l.length - 1) / Nat.sqrt l.length < 3) :
    build_skips l = l := by
  show (if Nat.sqrt l.length = 0 then l
      else if (l.length - 1) / Nat.sqrt l.length < 3 then l
      else buildSkipsLoop l 0 ((List.range (Nat.sqrt l.length)).map
        (fun m => (m + 1) * ((l.length - 1) / Nat.sqrt l.length)))) = l
  split_ifs with h1 h2
  · rfl
  · rfl
  · rcases h with h | h
    · exact absurd h h1
    · exact absurd h h2

theorem build_skips_skipAt {α : Type} (l : LinkedList α)
    (hfresh : ∀ i, l.skipAt i = none)
    (hk : Nat.sqrt l.length ≠ 0) (hI : 3 ≤ (l.length - 1) / Nat.sqrt l.length) (i : Nat) :
    (build_skips l).skipAt i =
      if i < l.length ∧ ∃ m, m < Nat.sqrt l.length ∧
          i = m * ((l.length - 1) / Nat.sqrt l.length)
      then some (i + (l.length - 1) / Nat.sqrt l.length)
      else none := by
  unfold LinkedList.skipAt
  rw [build_skips_getElem? l hk hI i]
  by_cases hc : ∃ m, m < Nat.sqrt l.length ∧ i = m * ((l.length - 1) / Nat.sqrt l.length)
  · rw [if_pos hc]
    rcases hLi : l[i]? with _ | e
    · have hge : l.length ≤ i := List.getElem?_eq_none_iff.mp hLi
      rw [if_neg (fun hcc => by omega)]
      rfl
    · have hlt : i < l.length := (List.getElem?_eq_some.mp hLi).1
      rw [if_pos ⟨hlt, hc⟩]
      rfl
  · rw [if_neg hc, if_neg (fun hcc => hc hcc.2)]
    have hf := hfresh i
    unfold LinkedList.skipAt at hf
    exact hf

/-- C5 counterexample: on a fresh 10-element list, `k = ⌊√10⌋ = 3` and
`interval = 9 / 3 = 3`, so the claim places a skip pointer at index
`k·interval = 9` pointing forward by `interval` (to 12, outside the list);
the code stores no skip pointer at index 9 — the pointer-carrying indices
stop at `(k−1)·interval`. -/
theorem c5_skip_terminus_counterexample :
    Nat.sqrt tenList.length = 3 ∧ (tenList.length - 1) / 3 = 3 ∧
    (build_skips tenList).skipAt (3 * 3) = none := by
  have hlen : tenList.length = 10 := by decide
  refine ⟨by rw [hlen]; exact sqrt_ten, by rw [hlen], ?_⟩
  have hb : build_skips tenList
      = buildSkipsLoop tenList 0 ((List.range 3).map (fun m => (m + 1) * 3)) := by
    show (if Nat.sqrt tenList.length = 0 then tenList
        else if (tenList.length - 1) / Nat.sqrt tenList.length < 3 then tenList
        else buildSkipsLoop tenList 0 ((List.range (Nat.sqrt tenList.length)).map
          (fun m => (m + 1) * ((tenList.length - 1) / Nat.sqrt tenList.length)))) = _
    rw [hlen, sqrt_ten]
    norm_num
  rw [hb]
  decide

/-- C5 amended: on a fresh list (no skip pointer set), `build_skips` places
no skips when `k = 0` or `interval < 3`, and otherwise stores a pointer
exactly at the indices `0, interval, …, (k−1)·interval`, each pointing
forward by `interval`; values are untouched, and every resulting skip from
`i` targets `j` with `i+2 ≤ j ≤ len−1` and (for ascending values)
`L[j] ≥ L[i+1]`. -/
theorem c5_build_skips_amended :
    ∀ (α : Type) [inst : LinearOrder α] (L : LinkedList α), (∀ i, L.skipAt i = none) →
      ((Nat.sqrt L.length = 0 ∨ (L.length - 1) / Nat.sqrt L.length < 3 →
        build_skips L = L) ∧
      (Nat.sqrt L.length ≠ 0 → 3 ≤ (L.length - 1) / Nat.sqrt L.length →
        ∀ i, (build_skips L).skipAt i =
          if i < L.length ∧ ∃ m, m < Nat.sqrt L.length ∧
              i = m * ((L.length - 1) / Nat.sqrt L.length)
          then some (i + (L.length - 1) / Nat.sqrt L.length)
          else none) ∧
      (build_skips L).values = L.values ∧
      (∀ i j, (build_skips L).skipAt i = some j →
        i + 2 ≤ j ∧ j ≤ L.length - 1 ∧
        (L.values.Pairwise (· ≤ ·) → ∀ x y,
          L.values[i + 1]? = some x → L.values[j]? = some y → x ≤ y))) := by
  intro α inst L hfresh
  refine ⟨build_skips_noop L, build_skips_skipAt L hfresh, build_skips_values L, ?_⟩
  intro i j hskip
  by_cases hdeg : Nat.sqrt L.length = 0 ∨ (L.length - 1) / Nat.sqrt L.length < 3
  · rw [build_skips_noop L hdeg, hfresh i] at hskip
    exact absurd hskip (by simp)
  · push_neg at hdeg
    obtain ⟨hk, hI'⟩ := hdeg
    have hI : 3 ≤ (L.length - 1) / Nat.sqrt L.length := by omega
    rw [build_skips_skipAt L hfresh hk hI i] at hskip
    by_cases hc : i < L.length ∧ ∃ m, m < Nat.sqrt L.length ∧
        i = m * ((L.length - 1) / Nat.sqrt L.length)
    · rw [if_pos hc] at hskip
      obtain ⟨hilen, m, hm, hieq⟩ := hc
      have hj : j = i + (L.length - 1) / Nat.sqrt L.length := by
        have := hskip
        simp at this
        omega
      have hjb : j ≤ L.length - 1 := by
        have h1 : j = (m + 1) * ((L.length - 1) / Nat.sqrt L.length) := by
          rw [hj, hieq]
          ring
        have h2 : (m + 1) * ((L.length - 1) / Nat.sqrt L.length)
            ≤ Nat.sqrt L.length * ((L.length - 1) / Nat.sqrt L.length) :=
          Nat.mul_le_mul_right _ (by omega)
        have h3 : Nat.sqrt L.length * ((L.length - 1) / Nat.sqrt L.length)
            ≤ L.length - 1 := by
          rw [Nat.mul_comm]
          exact Nat.div_mul_le_self _ _
        omega
      refine ⟨by omega, hjb, ?_⟩
      intro hord x y hx hy
      obtain ⟨hx1, hx2⟩ := List.getElem?_eq_some.mp hx
      obtain ⟨hy1, hy2⟩ := List.getElem?_eq_some.mp hy
      rw [← hx2, ← hy2]
      exact List.pairwise_iff_getElem.mp hord (i + 1) j hx1 hy1 (by omega)
    · rw [if_neg hc] at hskip
      exact absurd hskip (by simp)

/-- Hypothesis feeder for the C5 witness: a concrete fresh four-element
list falls in the no-skip regime (`interval = 3 / 2 = 1 < 3`). -/
theorem c5_noop_condition :
    Nat.sqrt (LinkedList.ofValues ([6, 7, 8, 9] : List ℕ)).length = 0 ∨
      ((LinkedList.ofValues ([6, 7, 8, 9] : List ℕ)).length - 1)
        / Nat.sqrt (LinkedList.ofValues ([6, 7, 8, 9] : List ℕ)).length < 3 := by
  right
  have hlen : (LinkedList.ofValues ([6, 7, 8, 9] : List ℕ)).length = 4 := by decide
  rw [hlen, sqrt_four]
  norm_num

/-- Witness for C5 (amended): `build_skips` leaves a fresh four-element
list unchanged. -/
theorem c5_build_skips_amended_witness :
    build_skips (LinkedList.ofValues ([6, 7, 8, 9] : List ℕ))
      = LinkedList.ofValues [6, 7, 8, 9] :=
  (c5_build_skips_amended ℕ (LinkedList.ofValues [6, 7, 8, 9])
    (fun i => skipAt_ofValues _ i)).1 c5_noop_condition

/-- C9 counterexample: build skips on a fresh 16-element list (`k = 4`,
`interval = 3`, so index 0 points to index 3), then `append(99)`. The
claim says the list then holds no skip pointer; in the code `append` only
pushes `(99, None)` and the old pointer at index 0 survives. -/
theorem c9_append_counterexample :
    ((build_skips sixteenList).push 99).skipAt 0 ≠ none := by
  have hlen : sixteenList.length = 16 := by decide
  have hb : build_skips sixteenList
      = buildSkipsLoop sixteenList 0 ((List.range 4).map (fun m => (m + 1) * 3)) := by
    show (if Nat.sqrt sixteenList.length = 0 then sixteenList
        else if (sixteenList.length - 1) / Nat.sqrt sixteenList.length < 3 then sixteenList
        else buildSkipsLoop sixteenList 0 ((List.range (Nat.sqrt sixteenList.length)).map
          (fun m => (m + 1) * ((sixteenList.length - 1) / Nat.sqrt sixteenList.length)))) = _
    rw [hlen, sqrt_sixteen]
    norm_num
  rw [hb]
  decide

/-- C9 amended: `append(v)` pushes `(v, None)` at the tail: the length
grows by one, the new node has no skip pointer, and all existing nodes —
including their skip pointers — are left exactly as they were (so a list
that held no skips still holds none, but built skips are not cleared). -/
theorem c9_append_amended :
    ∀ (α : Type) (L : LinkedList α) (v : α),
      (L.push v).length = L.length + 1 ∧
      (∀ i, i < L.length → (L.push v)[i]? = L[i]?) ∧
      (L.push v).skipAt L.length = none ∧
      ((∀ i, L.skipAt i = none) → ∀ i, (L.push v).skipAt i = none) := by
  intro α L v
  have hget : ∀ i, i < L.length → (L.push v)[i]? = L[i]? := by
    intro i hi
    unfold LinkedList.push
    rw [List.getElem?_append_left hi]
  refine ⟨by simp [LinkedList.push], hget, ?_, ?_⟩
  · unfold LinkedList.skipAt LinkedList.push
    rw [List.getElem?_append_right (by omega)]
    simp
  · intro hfresh i
    unfold LinkedList.skipAt
    by_cases hi : i < L.length
    · rw [hget i hi]
      have hf := hfresh i
      unfold LinkedList.skipAt at hf
      exact hf
    · by_cases hi2 : i < (L.push v).length
      · have hieq : i = L.length := by
          unfold LinkedList.push at hi2
          simp at hi2
          omega
        unfold LinkedList.push
        rw [hieq, List.getElem?_append_right (by omega)]
        simp
      · rw [List.getElem?_eq_none (by omega)]
        rfl

/-- Witness for C9 (amended): appending `7` to the fresh list `[5, 6]`
leaves node 0 unchanged. -/
theorem c9_append_amended_witness :
    ((LinkedList.ofValues ([5, 6] : List ℕ)).push 7)[0]?
      = (LinkedList.ofValues ([5, 6] : List ℕ))[0]? :=
  (c9_append_amended ℕ (LinkedList.ofValues [5, 6]) 7).2.1 0 (by decide)

theorem merge_positional_indexes_nil_left {D : Type} [LinearOrder D]
    (X : LinkedList (D × LinkedList ℤ)) : merge_positional_indexes [] X = [] := by
  cases X with
  | nil => rfl
  | cons x xs => simp [merge_positional_indexes, mergeRun, LinkedList.ofValues]

theorem merge_positional_indexes_nil_right {D : Type} [LinearOrder D]
    (X : LinkedList (D × LinkedList ℤ)) : merge_positional_indexes X [] = [] := by
  cases X with
  | nil => rfl
  | cons x xs => simp [merge_positional_indexes, mergeRun, LinkedList.ofValues]

theorem foldl_merge_from_nil {D : Type} [LinearOrder D] (dictionary : Dictionary D)
    (rest : List String) :
    rest.foldl (fun acc tok =>
        merge_positional_indexes acc (load_positional_index dictionary tok)) [] = [] := by
  induction rest with
  | nil => rfl
  | cons r rs ih =>
    show rs.foldl _ (merge_positional_indexes [] (load_positional_index dictionary r)) = []
    rw [merge_positional_indexes_nil_left]
    exact ih

theorem foldl_merge_missing {D : Type} [LinearOrder D] (dictionary : Dictionary D)
    (t : String) (ht : dictionary.lookup t = none) :
    ∀ (rest : List String) (acc : LinkedList (D × LinkedList ℤ)), t ∈ rest →
      rest.foldl (fun acc tok =>
        merge_positional_indexes acc (load_positional_index dictionary tok)) acc = [] := by
  intro rest
  induction rest with
  | nil => intro acc h; exact absurd h (List.not_mem_nil t)
  | cons r rs ih =>
    intro acc hmem
    rcases List.mem_cons.mp hmem with heq | hmem2
    · show rs.foldl _ (merge_positional_indexes acc (load_positional_index dictionary r)) = []
      have hload : load_positional_index dictionary r = [] := by
        unfold load_positional_index
        rw [← heq, ht]
      rw [hload, merge_positional_indexes_nil_right]
      exact foldl_merge_from_nil dictionary rs
    · exact ih _ hmem2

/-- C6: the phrase resolver yields an empty result on an empty token list,
and an empty result whenever any token of the phrase is missing from the
dictionary — the missing token silently loads as an empty positional
postings list (no error value exists in the embedding). -/
theorem c6_phrase_missing_token :
    ∀ (D : Type) [inst : LinearOrder D] (dictionary : Dictionary D),
      retrieve_phrase dictionary [] = ([] : LinkedList (D × LinkedList ℤ)) ∧
      (∀ token, dictionary.lookup token = none →
        load_positional_index dictionary token = ([] : LinkedList (D × LinkedList ℤ))) ∧
      (∀ (tokens : List String) (t : String), t ∈ tokens → dictionary.lookup t = none →
        retrieve_phrase dictionary tokens = []) := by
  intro D inst dictionary
  refine ⟨rfl, ?_, ?_⟩
  · intro token h
    unfold load_positional_index
    rw [h]
  · intro tokens t hmem ht
    cases tokens with
    | nil => rfl
    | cons t0 rest =>
      show rest.foldl _ (load_positional_index dictionary t0) = []
      rcases List.mem_cons.mp hmem with heq | hmem2
      · have hload : load_positional_index dictionary t0 = [] := by
          unfold load_positional_index
          rw [← heq, ht]
        rw [hload]
        exact foldl_merge_from_nil dictionary rest
      · exact foldl_merge_missing dictionary t ht rest _ hmem2

/-- Witness for C6: the token `zz` is missing from a one-entry dictionary,
so the phrase `a zz` resolves to the empty list. -/
theorem c6_phrase_missing_token_witness :
    retrieve_phrase
        ([("a", (1, [], [((1, [((0 : ℤ), none)]), none)]))] : Dictionary ℕ) ["a", "zz"]
      = ([] : LinkedList (ℕ × LinkedList ℤ)) :=
  (c6_phrase_missing_token ℕ
      ([("a", (1, [], [((1, [((0 : ℤ), none)]), none)]))] : Dictionary ℕ)).2.2
    ["a", "zz"] "zz" (by decide) rfl

theorem mem_of_lookup_some {β : Type} :
    ∀ {c : List (String × β)} {k : String} {v : β}, c.lookup k = some v → (k, v) ∈ c := by
  intro c
  induction c with
  | nil => intro k v h; simp [List.lookup] at h
  | cons kv c ih =>
    intro k v h
    rcases kv with ⟨k1, v1⟩
    rw [List.lookup] at h
    cases hbeq : (k == k1) with
    | false =>
      rw [hbeq] at h
      exact List.mem_cons_of_mem _ (ih h)
    | true =>
      rw [hbeq] at h
      have hk : k = k1 := eq_of_beq hbeq
      have hv : v1 = v := by simpa using h
      rw [hk, ← hv]
      exact List.mem_cons_self _ _

theorem cGet_zero {c : PyCounter} (h : ∀ kv ∈ c, kv.2 = 0) (k : String) : cGet c k = 0 := by
  unfold cGet
  rcases hl : c.lookup k with _ | v
  · rfl
  · have hmem : (k, v) ∈ c := mem_of_lookup_some hl
    simpa using h _ hmem

/-- C7 counterexample: `rocchio_algorithm` returns the `Counter` sum
`normalized_query + centroid`, and Python's `Counter.__add__` drops
non-positive entries — with `α = 1`, `β = 0` and the query `{t: -1}` the
result is the empty mapping, which is not numerically equal to the query
at key `t`. -/
theorem c7_rocchio_counterexample :
    cGet (rocchio_algorithm [("t", -1)] ([] : List ℕ) [] 1 0) "t" ≠ cGet [("t", -1)] "t" := by
  have h1 : rocchio_algorithm [("t", -1)] ([] : List ℕ) [] 1 0 = [] := by
    unfold rocchio_algorithm counterAdd
    norm_num [cGet, keepPositive, List.filterMap_cons]
  rw [h1]
  norm_num [cGet, List.lookup]

theorem counterAdd_zero_right (q c : PyCounter) (hq : ∀ kv ∈ q, 0 < kv.2)
    (hc : ∀ kv ∈ c, kv.2 = 0) : counterAdd q c = q := by
  unfold counterAdd
  have h1 : q.filterMap (fun kv =>
      let newcount := kv.2 + cGet c kv.1
      if 0 < newcount then some (kv.1, newcount) else none) = q := by
    have hcongr : ∀ kv ∈ q, (fun kv =>
        let newcount := kv.2 + cGet c kv.1
        if 0 < newcount then some (kv.1, newcount) else none) kv = some kv := by
      intro kv hkv
      simp only [cGet_zero hc, add_zero]
      rw [if_pos (hq kv hkv)]
    rw [List.filterMap_congr hcongr]
    exact List.filterMap_some q
  rw [h1]
  have h2 : c.filter
      (fun kv => !(q.any (fun kv2 => kv2.1 == kv.1)) && decide (0 < kv.2)) = [] := by
    rw [List.filter_eq_nil_iff]
    intro kv hkv
    simp [hc kv hkv]
  rw [h2, List.append_nil]

/-- C7 amended: for every query whose weights are all positive (as every
vector produced by query vectorization and expansion is), Rocchio with
`α = 1`, `β = 0` returns the query unchanged: the centroid's weights are
all zero, so `Counter.__add__` keeps exactly the query entries. -/
theorem c7_rocchio_alpha_one_beta_zero :
    ∀ (D : Type) [inst : DecidableEq D] (query : PyCounter) (relevant_doc_ids : List D)
      (docs_vector : DocVectors D), (∀ kv ∈ query, 0 < kv.2) →
      rocchio_algorithm query relevant_doc_ids docs_vector 1 0 = query := by
  intro D inst query relevant_doc_ids docs_vector hpos
  show counterAdd (query.map (fun kv => (kv.1, 1 * kv.2)))
    ((relevant_doc_ids.foldl
        (fun acc d => counterIAdd acc (load_document_vector d docs_vector)) []).map
      (fun kv => (kv.1, 0 * kv.2 / (relevant_doc_ids.length : ℚ)))) = query
  have hq : query.map (fun kv => (kv.1, 1 * kv.2)) = query := by
    have hpt : ∀ kv ∈ query, (kv.1, 1 * kv.2) = kv := by
      intro kv _
      simp
    rw [List.map_congr_left hpt, List.map_id']
  rw [hq]
  apply counterAdd_zero_right _ _ hpos
  intro kv hkv
  obtain ⟨kv0, _, rfl⟩ := List.mem_map.mp hkv
  simp

/-- Witness for C7 (amended): a positive one-term query with one relevant
document passes through Rocchio `α = 1`, `β = 0` unchanged. -/
theorem c7_rocchio_alpha_one_beta_zero_witness :
    rocchio_algorithm [("a", 2)] [1] ([(1, [("a", 3)])] : DocVectors ℕ) 1 0 = [("a", 2)] :=
  c7_rocchio_alpha_one_beta_zero ℕ [("a", 2)] [1] [(1, [("a", 3)])] (by decide)

/-- C10: a DocId absent from the document-vector dictionary loads as an
empty Counter (the embedding of "returns without raising"), and summing
that empty Counter into Rocchio's relevance accumulator leaves any
positive accumulator unchanged — the unknown DocId acts as a zero
document vector. -/
theorem c10_unknown_doc_zero_vector :
    ∀ (D : Type) [inst : DecidableEq D] (docs_vector : DocVectors D) (d : D),
      docs_vector.lookup d = none →
      load_document_vector d docs_vector = [] ∧
      (∀ acc : PyCounter, (∀ kv ∈ acc, 0 < kv.2) →
        counterIAdd acc (load_document_vector d docs_vector) = acc) := by
  intro D inst docs_vector d h
  have hload : load_document_vector d docs_vector = [] := by
    unfold load_document_vector
    rw [h]
  refine ⟨hload, ?_⟩
  intro acc hacc
  rw [hload]
  unfold counterIAdd keepPositive
  show (([] : PyCounter).foldl
      (fun acc kv => dictSet acc kv.1 (kv.2 + cGet acc kv.1)) acc).filter
      (fun kv => decide (0 < kv.2)) = acc
  rw [List.foldl_nil]
  rw [List.filter_eq_self.mpr]
  intro kv hkv
  simpa using hacc kv hkv

/-- Witness for C10: DocId `2` is missing from a one-entry document-vector
dictionary; loading it yields the empty Counter. -/
theorem c10_unknown_doc_zero_vector_witness :
    load_document_vector 2 ([(1, [("x", 1)])] : DocVectors ℕ) = [] :=
  (c10_unknown_doc_zero_vector ℕ [(1, [("x", 1)])] 2
    (show List.lookup 2 ([(1, [("x", 1)])] : DocVectors ℕ) = none from rfl)).1

/-- C8: `parse_query` classifies a line as boolean exactly when a CSV
element equals the literal `AND` — but the boolean branch then evaluates
`QueryType.BOOLEAN[<listcomp>]` (the tuple's comma is missing in the
source), raising `TypeError` instead of returning the parsed items; the
free-text branch works as specified. -/
theorem c8_parse_query_boolean_type_error (normalise : String → String) :
    parse_query normalise "a AND b" = .error .typeError ∧
    csvSplit "a AND b" = ["a", "AND", "b"] ∧
    parse_query normalise "x y" =
      .ok (QueryType.FREE_TEXT, [QTok.term (normalise "x"), QTok.term (normalise "y")]) :=
  ⟨rfl, rfl, rfl⟩

theorem insertDescBy_perm {τ : Type} (key : τ → ℚ) (x : τ) (l : List τ) :
    (insertDescBy key x l).Perm (x :: l) := by
  induction l with
  | nil => exact List.Perm.refl _
  | cons y ys ih =>
    unfold insertDescBy
    by_cases h : key x ≤ key y
    · rw [if_pos h]
      exact (ih.cons y).trans (List.Perm.swap x y ys)
    · rw [if_neg h]

theorem sortDescBy_perm {τ : Type} (key : τ → ℚ) (l : List τ) :
    (sortDescBy key l).Perm l := by
  suffices h : ∀ (l acc : List τ),
      (l.foldl (fun acc x => insertDescBy key x acc) acc).Perm (acc ++ l) by
    simpa [sortDescBy] using h l []
  intro l
  induction l with
  | nil => intro acc; simp
  | cons x xs ih =>
    intro acc
    rw [List.foldl_cons]
    refine (ih _).trans ?_
    refine (List.Perm.append_right xs (insertDescBy_perm key x acc)).trans ?_
    exact (List.perm_middle).symm

theorem insertDescBy_sorted {τ : Type} (key : τ → ℚ) (x : τ) (l : List τ)
    (h : l.Pairwise (fun a b => key b ≤ key a)) :
    (insertDescBy key x l).Pairwise (fun a b => key b ≤ key a) := by
  induction l with
  | nil => simp [insertDescBy]
  | cons y ys ih =>
    rw [List.pairwise_cons] at h
    obtain ⟨hy, hys⟩ := h
    unfold insertDescBy
    by_cases hc : key x ≤ key y
    · rw [if_pos hc]
      rw [List.pairwise_cons]
      constructor
      · intro b hb
        have hmem : b ∈ x :: ys := (insertDescBy_perm key x ys).mem_iff.mp hb
        rcases List.mem_cons.mp hmem with rfl | hmem2
        · exact hc
        · exact hy b hmem2
      · exact ih hys
    · rw [if_neg hc]
      push_neg at hc
      rw [List.pairwise_cons]
      constructor
      · intro b hb
        rcases List.mem_cons.mp hb with rfl | hb2
        · exact le_of_lt hc
        · exact le_trans (hy b hb2) (le_of_lt hc)
      · exact List.pairwise_cons.mpr ⟨hy, hys⟩

theorem sortDescBy_sorted {τ : Type} (key : τ → ℚ) (l : List τ) :
    (sortDescBy key l).Pairwise (fun a b => key b ≤ key a) := by
  suffices h : ∀ (l acc : List τ), acc.Pairwise (fun a b => key b ≤ key a) →
      (l.foldl (fun acc x => insertDescBy key x acc) acc).Pairwise
        (fun a b => key b ≤ key a) by
    exact h l [] List.Pairwise.nil
  intro l
  induction l with
  | nil => intro acc hacc; exact hacc
  | cons x xs ih =>
    intro acc hacc
    rw [List.foldl_cons]
    exact ih _ (insertDescBy_sorted key x acc hacc)

theorem addScore_fst {D : Type} [DecidableEq D] (s : List (D × ℚ)) (doc : D) (δ : ℚ) :
    (addScore s doc δ).map Prod.fst
      = if s.any (fun kv => decide (kv.1 = doc)) then s.map Prod.fst
        else s.map Prod.fst ++ [doc] := by
  unfold addScore
  by_cases h : s.any (fun kv => decide (kv.1 = doc))
  · rw [if_pos h, if_pos h, List.map_map]
    apply List.map_congr_left
    intro kv _
    by_cases hk : kv.1 = doc <;> simp [hk]
  · rw [if_neg h, if_neg h]
    simp

theorem addScore_nodup {D : Type} [DecidableEq D] (s : List (D × ℚ)) (doc : D) (δ : ℚ)
    (h : (s.map Prod.fst).Nodup) : ((addScore s doc δ).map Prod.fst).Nodup := by
  rw [addScore_fst]
  by_cases hc : s.any (fun kv => decide (kv.1 = doc))
  · rw [if_pos hc]
    exact h
  · rw [if_neg hc]
    rw [List.nodup_append]
    refine ⟨h, List.nodup_singleton _, ?_⟩
    intro a ha hb
    have hd : a = doc := by simpa using hb
    subst hd
    obtain ⟨kv, hkv, he⟩ := List.mem_map.mp ha
    rw [List.any_eq_true] at hc
    push_neg at hc
    have := hc kv hkv
    simp [he] at this

theorem foldl_addScore_nodup {D : Type} [DecidableEq D] (f : D × ℚ → ℚ) :
    ∀ (ps : List (D × ℚ)) (acc : List (D × ℚ)), (acc.map Prod.fst).Nodup →
      ((ps.foldl (fun acc2 p => addScore acc2 p.1 (f p)) acc).map Prod.fst).Nodup := by
  intro ps
  induction ps with
  | nil => intro acc h; exact h
  | cons p ps ih =>
    intro acc h
    rw [List.foldl_cons]
    exact ih _ (addScore_nodup _ _ _ h)

theorem accumulate_scores_nodup {D : Type} [DecidableEq D] (qv : List (String × ℚ))
    (dictionary : Dictionary D) :
    ((accumulate_scores qv dictionary).map Prod.fst).Nodup := by
  unfold accumulate_scores
  suffices h : ∀ (qv : List (String × ℚ)) (acc : List (D × ℚ)), (acc.map Prod.fst).Nodup →
      ((qv.foldl (fun acc tf =>
        match dictionary.lookup tf.1 with
        | none => acc
        | some e => (e.2.1.values).foldl
            (fun acc2 p => addScore acc2 p.1 (tf.2 * p.2 * e.1)) acc) acc).map
        Prod.fst).Nodup by
    exact h qv [] (by simp)
  intro qv
  induction qv with
  | nil => intro acc h; exact h
  | cons tf rest ih =>
    intro acc hacc
    rw [List.foldl_cons]
    apply ih
    rcases hd : dictionary.lookup tf.1 with _ | e
    · simpa [hd] using hacc
    · simp only [hd]
      exact foldl_addScore_nodup _ _ _ hacc

theorem lookup_eq_of_mem_nodup {D : Type} [DecidableEq D] :
    ∀ {l : List (D × ℚ)}, (l.map Prod.fst).Nodup →
      ∀ {k : D} {v : ℚ}, (k, v) ∈ l → l.lookup k = some v := by
  intro l
  induction l with
  | nil => intro _ k v hm; simp at hm
  | cons kv l ih =>
    intro hn k v hm
    rcases kv with ⟨k1, v1⟩
    rw [List.lookup]
    rcases List.mem_cons.mp hm with heq | hm2
    · have hk : k = k1 := congrArg Prod.fst heq
      have hv : v = v1 := congrArg Prod.snd heq
      subst hk
      simp only [beq_self_eq_true]
      rw [hv]
    · have hk : k ≠ k1 := by
        intro he
        subst he
        rw [List.map_cons, List.nodup_cons] at hn
        exact hn.1 (List.mem_map.mpr ⟨(k, v), hm2, rfl⟩)
      have hb : (k == k1) = false := by simp [hk]
      rw [hb]
      rw [List.map_cons, List.nodup_cons] at hn
      exact ih hn.2 hm2

/-- C4 amended: the ranked scorer's output is sorted by normalized score
descending, and a document appears in the output exactly when it was
scored with a normalized score above the threshold; score ties, however,
keep the stable sort's order (the order in which documents were first
scored), not DocId-ascending order. -/
theorem c4_ranked_order_amended :
    ∀ (D : Type) [inst : DecidableEq D] (query_vector : List (String × ℚ))
      (dictionary : Dictionary D) (vector_lengths : List (D × ℚ)),
      ((get_relevant_docs_core query_vector dictionary vector_lengths).values.Pairwise
        (fun d d' => normScore query_vector dictionary vector_lengths d'
          ≤ normScore query_vector dictionary vector_lengths d)) ∧
      (∀ d, d ∈ (get_relevant_docs_core query_vector dictionary vector_lengths).values ↔
        (d ∈ (normalized_scores_of query_vector dictionary vector_lengths).map Prod.fst ∧
          THRESHOLD < normScore query_vector dictionary vector_lengths d)) := by
  intro D inst qv dict lens
  have hkeysmap : (normalized_scores_of qv dict lens).map Prod.fst
      = (accumulate_scores qv dict).map Prod.fst := by
    unfold normalized_scores_of
    rw [List.map_map]
    exact List.map_congr_left (fun kv _ => rfl)
  have hnodup : ((normalized_scores_of qv dict lens).map Prod.fst).Nodup := by
    rw [hkeysmap]
    exact accumulate_scores_nodup qv dict
  have hscore : ∀ kv ∈ normalized_scores_of qv dict lens,
      normScore qv dict lens kv.1 = kv.2 := by
    intro kv hkv
    unfold normScore
    have hmem : (kv.1, kv.2) ∈ normalized_scores_of qv dict lens := by
      simpa using hkv
    rw [lookup_eq_of_mem_nodup hnodup hmem]
    rfl
  have hout : (get_relevant_docs_core qv dict lens).values
      = ((sortDescBy Prod.snd (normalized_scores_of qv dict lens)).filter
          (fun kv => decide (THRESHOLD < kv.2))).map Prod.fst := by
    unfold get_relevant_docs_core
    rw [values_ofValues]
  constructor
  · rw [hout, List.pairwise_map]
    have hsorted := sortDescBy_sorted Prod.snd (normalized_scores_of qv dict lens)
    have hfil : ((sortDescBy Prod.snd (normalized_scores_of qv dict lens)).filter
        (fun kv => decide (THRESHOLD < kv.2))).Pairwise (fun a b => b.2 ≤ a.2) :=
      List.Pairwise.sublist (List.filter_sublist _) hsorted
    refine List.Pairwise.imp_of_mem ?_ hfil
    intro a b ha hb hr
    have ha2 : a ∈ normalized_scores_of qv dict lens :=
      (sortDescBy_perm Prod.snd _).mem_iff.mp (List.mem_of_mem_filter ha)
    have hb2 : b ∈ normalized_scores_of qv dict lens :=
      (sortDescBy_perm Prod.snd _).mem_iff.mp (List.mem_of_mem_filter hb)
    rw [hscore a ha2, hscore b hb2]
    exact hr
  · intro d
    rw [hout]
    constructor
    · intro hd
      obtain ⟨kv, hkv, rfl⟩ := List.mem_map.mp hd
      have hkv2 := List.mem_filter.mp hkv
      have hmem : kv ∈ normalized_scores_of qv dict lens :=
        (sortDescBy_perm Prod.snd _).mem_iff.mp hkv2.1
      refine ⟨List.mem_map.mpr ⟨kv, hmem, rfl⟩, ?_⟩
      rw [hscore kv hmem]
      simpa using hkv2.2
    · rintro ⟨hd, hth⟩
      obtain ⟨kv, hkv, rfl⟩ := List.mem_map.mp hd
      have hs := hscore kv hkv
      refine List.mem_map.mpr ⟨kv, ?_, rfl⟩
      refine List.mem_filter.mpr ⟨(sortDescBy_perm Prod.snd _).mem_iff.mpr hkv, ?_⟩
      rw [hs] at hth
      simpa using hth

/-- C4 counterexample: with the query `{t1: 1, t2: 1}` — `t1` hitting only
doc `2`, `t2` hitting only doc `1`, all weights `1` — both docs score `1`;
the code's stable sort keeps the scoring order `[2, 1]`, while the claimed
`(−score, doc_id ascending)` ordering demands `[1, 2]`. -/
theorem c4_tie_break_counterexample :
    (get_relevant_docs_core c4query c4dictionary c4lengths).values
      ≠ specRanking c4query c4dictionary c4lengths := by
  have e1 : ("t1" == "t1") = true := by decide
  have e2 : ("t2" == "t1") = false := by decide
  have e3 : ("t2" == "t2") = true := by decide
  have n1 : ((2 : ℕ) == 1) = false := by decide
  have n2 : ((1 : ℕ) == 1) = true := by decide
  have n3 : ((2 : ℕ) == 2) = true := by decide
  have n4 : ((1 : ℕ) == 2) = false := by decide
  have h1 : (get_relevant_docs_core c4query c4dictionary c4lengths).values = [2, 1] := by
    norm_num [get_relevant_docs_core, c4query, c4dictionary, c4lengths, accumulate_scores,
      normalized_scores_of, addScore, sortDescBy, insertDescBy, THRESHOLD, LinkedList.values,
      LinkedList.ofValues, List.lookup, e1, e2, e3, n1, n2, n3, n4]
  have h2 : specRanking c4query c4dictionary c4lengths = [1, 2] := by
    norm_num [specRanking, c4query, c4dictionary, c4lengths, accumulate_scores,
      normalized_scores_of, addScore, specInsertRanked, THRESHOLD, LinkedList.values,
      LinkedList.ofValues, List.lookup, e1, e2, e3, n1, n2, n3, n4]
  rw [h1, h2]
  decide

/-- C1: on the spec's S3 corpus (`d1 = "a b c"`, `d2 = "a b"`,
`d3 = "c a"`) the query `"a b" AND c` does not return `{d1}`: the phrase
resolves to the positional pairs for docs 1 and 2 (second conjunct), but
`perform_boolean_query` feeds those `(doc, positions)` tuples and the
term's `(doc, tf)` tuples into `perform_and` without projecting to doc
ids, and comparing `(1, positions)` against `(1, 1.0)` raises `TypeError`
(first conjunct) — the docstring's promised "LinkedList of document IDs"
is never produced. -/
theorem c1_boolean_query_s3_type_error :
    perform_boolean_query s3tokens s3dictionary = .error () ∧
    posProj (retrieve_phrase s3dictionary ["a", "b"]) = [(1, [1]), (2, [1])] := by
  have e1 : ("a" == "a") = true := by decide
  have e2 : ("b" == "a") = false := by decide
  have e3 : ("b" == "b") = true := by decide
  have e4 : ("c" == "a") = false := by decide
  have e5 : ("c" == "b") = false := by decide
  have e6 : ("c" == "c") = true := by decide
  constructor
  · have hsort : sortDescBy (get_idf s3dictionary) s3tokens
        = [QTok.phrase ["a", "b"], QTok.term "c"] := by
      norm_num [sortDescBy, s3tokens, insertDescBy, get_idf, idfOf, s3dictionary,
        List.lookup, e1, e2, e3, e4, e5, e6]
    unfold perform_boolean_query
    rw [hsort]
    rfl
  · rfl
